import Mathlib

/-!
Verification of the RFC index-to-graph tool.

The Go source (main.go) is shallowly embedded below.  Strings are modelled
as lists of characters (`Str`), Go maps as association lists with
replace-or-append insertion (`mapInsert`), Go's `Type` and `Status`
integer enumerations as `Nat` with named constants, and panics as
`Option`/`Except` failure values.  Go's regular-expression matching
(POSIX leftmost-longest) is embedded as explicit scanning functions, one
per compiled pattern of the source.
-/

namespace RfcSpec

/-- Strings of the Go program, as lists of characters (all data handled by
the tool is ASCII, where Go's byte-wise string order and the character-wise
order below agree). -/
abbrev Str := List Char

/-- Go string comparison `<` (lexicographic). -/
def ltStr : Str → Str → Bool
  | [], [] => false
  | [], _ :: _ => true
  | _ :: _, [] => false
  | a :: as, b :: bs => if a < b then true else if b < a then false else ltStr as bs

/-- Go map assignment `m[k] = v`: replace the binding if the key is
present, otherwise append a new binding. -/
def mapInsert {α κ : Type} [DecidableEq κ] : List (κ × α) → κ → α → List (κ × α)
  | [], k, v => [(k, v)]
  | (k', v') :: rest, k, v =>
      if k' = k then (k, v) :: rest else (k', v') :: mapInsert rest k v

/-- Go map lookup `m[k]`. -/
def mapLookup {α κ : Type} [DecidableEq κ] : List (κ × α) → κ → Option α
  | [], _ => none
  | (k', v') :: rest, k => if k' = k then some v' else mapLookup rest k

/-- `type Type int` constants (`iota`): `Current`. -/
def Current : Nat := 0
/-- `Updated`. -/
def Updated : Nat := 1
/-- `Obsoleted`. -/
def Obsoleted : Nat := 2

/-- `type Status int` constants (`iota`). -/
def Unknown : Nat := 0
/-- `Historic`. -/
def Historic : Nat := 1
/-- `Experimental`. -/
def Experimental : Nat := 2
/-- `Informational`. -/
def Informational : Nat := 3
/-- `DraftStandard`. -/
def DraftStandard : Nat := 4
/-- `ProposedStandard`. -/
def ProposedStandard : Nat := 5
/-- `InternetStandard`. -/
def InternetStandard : Nat := 6
/-- `BestCurrentPractice`. -/
def BestCurrentPractice : Nat := 7

/-- The `Statuses` name table (`map[string]Status`). -/
def Statuses : List (Str × Nat) :=
  [("UNKNOWN".data, Unknown),
   ("HISTORIC".data, Historic),
   ("EXPERIMENTAL".data, Experimental),
   ("INFORMATIONAL".data, Informational),
   ("DRAFT STANDARD".data, DraftStandard),
   ("PROPOSED STANDARD".data, ProposedStandard),
   ("INTERNET STANDARD".data, InternetStandard),
   ("BEST CURRENT PRACTICE".data, BestCurrentPractice)]

/-- `func GetStatus(val string) Status`: table lookup, panic (`none`) on an
unrecognized value. -/
def GetStatus (val : Str) : Option Nat := mapLookup Statuses val

/-- `func MakeType(val string) Type`: panic (`none`) on an unrecognized
relation-kind token. -/
def MakeType (val : Str) : Option Nat :=
  if val = "Updated".data ∨ val = "Updates".data then some Updated
  else if val = "Obsoleted".data ∨ val = "Obsoletes".data then some Obsoleted
  else none

/-- `type RFC struct`.  The Go field `Type` is called `Typ` here (`Type` is
reserved in Lean); `Forwards`/`Backwards` are Go maps from RFC number to
relation kind, modelled as association lists. -/
structure RFC where
  Number : Str
  Title : Str
  Authors : Str
  Date : Str
  Typ : Nat
  Status : Nat
  Forwards : List (Str × Nat)
  Backwards : List (Str × Nat)
  Params : List Str
  deriving DecidableEq, Repr

/-- The global `RFCs map[string]*RFC` store, as an association list whose
order also stands for one concrete Go map iteration order. -/
abbrev Store := List (Str × RFC)

/-- `func GetRFC(id string) *RFC`: lookup that panics (`none`) when the
identifier is absent. -/
def GetRFC (s : Store) (id : Str) : Option RFC := mapLookup s id

/-- `type Edge struct`. -/
structure Edge where
  From : Str
  To : Str
  Typ : Nat
  deriving DecidableEq, Repr

/-- Decimal rendering of a natural number (`%d`). -/
def natRepr (n : Nat) : Str := (Nat.repr n).data

/-- Decimal rendering of an integer (`%d`). -/
def intRepr (i : Int) : Str := (Int.repr i).data

/-- `func (e Edge) ID() string`: the canonical key `From:To:Type`. -/
def Edge.ID (e : Edge) : Str := e.From ++ ':' :: e.To ++ ':' :: natRepr e.Typ

/-- `func (t Type) Edge() string`: rendering style of an edge by relation
kind; panic (`none`) for any other value. -/
def TypeEdge (t : Nat) : Option Str :=
  if t = Updated then some []
  else if t = Obsoleted then some " [style=dashed]".data
  else none

/-- `func (t Type) Node() string`: node style by classification; panic
(`none`) otherwise. -/
def TypeNode (t : Nat) : Option Str :=
  if t = Current then some "style=solid fontname=\"Helvetica-Bold\"".data
  else if t = Updated then some "style=solid fontname=\"Helvetica\"".data
  else if t = Obsoleted then some "style=dotted fontname=\"Helvetica-Narrow\"".data
  else none

/-- The `statusNode` table (shape per lifecycle status). -/
def statusNode : List (Nat × Str) :=
  [(Unknown, "none".data),
   (Historic, "cylinder".data),
   (Experimental, "parallelogram".data),
   (Informational, "house".data),
   (DraftStandard, "polygon".data),
   (ProposedStandard, "oval".data),
   (InternetStandard, "box".data),
   (BestCurrentPractice, "trapezium".data)]

/-- The `statusName` table. -/
def statusName : List (Nat × Str) :=
  [(Unknown, "Unknown".data),
   (Historic, "Historic".data),
   (Experimental, "Experimental".data),
   (Informational, "Informational".data),
   (DraftStandard, "DraftStandard".data),
   (ProposedStandard, "ProposedStandard".data),
   (InternetStandard, "InternetStandard".data),
   (BestCurrentPractice, "BestCurrentPractice".data)]

/-- `func (s Status) Node() string`: `shape=<node>`; panic (`none`) for a
status outside the table. -/
def StatusNodeStr (s : Nat) : Option Str :=
  (mapLookup statusNode s).map (fun n => "shape=".data ++ n)

/-- `func (s Status) String() string`. -/
def StatusString (s : Nat) : Str :=
  match mapLookup statusName s with
  | some n => n
  | none => "Status".data ++ natRepr s

/-- `func (rfc *RFC) SetType(t Type)`: escalate the classification when the
new kind is strictly larger. -/
def RFC.SetType (r : RFC) (t : Nat) : RFC :=
  if r.Typ < t then { r with Typ := t } else r

/-- Escalate the classification of the record stored under `id`. -/
def setTypeIn (s : Store) (id : Str) (t : Nat) : Store :=
  s.map (fun p => if p.1 = id then (p.1, p.2.SetType t) else p)

/-- `func (rfc *RFC) SetTypes()` for the record stored under `id`: every
forward relation escalates the record itself, every backward relation
escalates the referenced record (`GetRFC` panics — `none` — when the
referenced identifier is absent from the store). -/
def SetTypes (s : Store) (id : Str) : Option Store :=
  match GetRFC s id with
  | none => none
  | some r =>
    let s1 := r.Forwards.foldl (fun acc p => setTypeIn acc id p.2) s
    r.Backwards.foldlM
      (fun acc p =>
        if (GetRFC acc p.1).isSome then some (setTypeIn acc p.1 p.2) else none) s1

/-- The one-time escalation pass of `main`
(`for _, rfc := range RFCs { rfc.SetTypes() }`), applied along the
iteration order `ids`. -/
def SetTypesAll (s : Store) (ids : List Str) : Option Store :=
  ids.foldlM SetTypes s

/-- Go `strings.Split(s, " ")`, as head segment plus remaining segments. -/
def splitSp : Str → Str × List Str
  | [] => ([], [])
  | c :: rest =>
    if c = ' ' then let p := splitSp rest; ([], p.1 :: p.2)
    else let p := splitSp rest; (c :: p.1, p.2)

/-- Numeric value of a digit string. -/
def digitsVal (s : Str) : Nat := s.foldl (fun a c => a * 10 + (c.toNat - 48)) 0

/-- Go `strconv.Atoi`: optional sign, at least one digit, nothing else,
value within the 64-bit integer range; `none` is the error case. -/
def Atoi (s : Str) : Option Int :=
  let p : Bool × Str :=
    match s with
    | '-' :: r => (true, r)
    | '+' :: r => (false, r)
    | r => (false, r)
  if p.2 = [] ∨ ¬ p.2.all Char.isDigit then none
  else
    let v : Int := if p.1 then -(digitsVal p.2 : Int) else (digitsVal p.2 : Int)
    if v < -(2 ^ 63) ∨ (2 ^ 63 : Int) ≤ v then none else some v

/-- `func (rfc *RFC) Year() (int, error)`: the date must split on single
spaces into exactly two parts and the second must parse as an integer. -/
def RFC.Year (r : RFC) : Option Int :=
  match splitSp r.Date with
  | (_, [b]) => Atoi b
  | _ => none

/-- Split at the last occurrence of `". "` (the POSIX leftmost-longest
submatching of `(.+)\. (.*)` makes the first group as long as possible):
`some (a, b)` means the input is `a ++ ". " ++ b` and `b` holds no further
`". "`. -/
def splitLast : Str → Option (Str × Str)
  | [] => none
  | c :: rest =>
    match splitLast rest with
    | some (a, b) => some (c :: a, b)
    | none =>
      if c = '.' ∧ rest.head? = some ' ' then some ([], rest.tail) else none

/-- The anchored pattern `reRFC = ^([[:digit:]]+) (.+)\. (.*)`: returns the
three submatches (identifier, free text, annotation text).  The digit
group is the maximal digit prefix (which must be followed by a space), and
the free-text group extends to the last `". "` (POSIX longest-first
submatching) and must be nonempty. -/
def matchRFC (line : Str) : Option (Str × Str × Str) :=
  let d := line.takeWhile Char.isDigit
  let rest := line.dropWhile Char.isDigit
  if d = [] then none
  else if rest.head? = some ' ' then
    match splitLast rest.tail with
    | some (a, b) => if a = [] then none else some (d, a, b)
    | none => none
  else none

/-- Recursion core of `splitSep`, with an explicit depth bound that the
wrapper always supplies in excess (one step consumes at least one
character). -/
def splitSepGo : Nat → Str → Str × List Str
  | 0, _ => ([], [])
  | _ + 1, [] => ([], [])
  | fuel + 1, c :: rest =>
    if c = '.' ∧ rest.head? = some ' ' then
      let p := splitSepGo fuel rest.tail
      ([], p.1 :: p.2)
    else
      let p := splitSepGo fuel rest
      (c :: p.1, p.2)

/-- Go `strings.Split(m[2], ". ")`, as head segment plus remaining
segments (the Go slice `parts` is `h :: t`). -/
def splitSep (s : Str) : Str × List Str := splitSepGo (s.length + 1) s

/-- Go `strings.Join(parts, ". ")`. -/
def joinSep : List Str → Str
  | [] => []
  | [x] => x
  | x :: y :: ys => x ++ '.' :: ' ' :: joinSep (y :: ys)

/-- The unanchored pattern `reParams = [[:space:]]*\(([^\)]+)\)(.*)`:
leftmost parenthesized token with a nonempty body, plus the text after its
closing parenthesis. -/
def matchParams : Str → Option (Str × Str)
  | [] => none
  | c :: rest =>
    if c = '(' then
      let tok := rest.takeWhile (fun x => x ≠ ')')
      let rest' := rest.dropWhile (fun x => x ≠ ')')
      if rest' = [] then matchParams rest
      else if tok = [] then matchParams rest
      else some (tok, rest'.tail)
    else matchParams rest

/-- The unanchored pattern `reForward = (Obsoleted|Updated) by (.*)`:
leftmost occurrence, returning the matched kind word and the tail. -/
def matchForward : Str → Option (Str × Str)
  | [] => none
  | l@(_ :: rest) =>
    if ("Obsoleted by ".data).isPrefixOf l then some ("Obsoleted".data, l.drop 13)
    else if ("Updated by ".data).isPrefixOf l then some ("Updated".data, l.drop 11)
    else matchForward rest

/-- The unanchored pattern `reBackward = (Obsoletes|Updates) (.*)`. -/
def matchBackward : Str → Option (Str × Str)
  | [] => none
  | l@(_ :: rest) =>
    if ("Obsoletes ".data).isPrefixOf l then some ("Obsoletes".data, l.drop 10)
    else if ("Updates ".data).isPrefixOf l then some ("Updates".data, l.drop 8)
    else matchBackward rest

/-- POSIX `[[:space:]]`. -/
def posixSpace (c : Char) : Bool :=
  c = ' ' ∨ c = '\t' ∨ c = '\n' ∨ c = Char.ofNat 11 ∨ c = Char.ofNat 12 ∨ c = '\r'

/-- The unanchored pattern `reStatus = Status:[[:space:]]*(.*)`: leftmost
occurrence of `Status:`, maximal whitespace skipped, rest captured. -/
def matchStatus : Str → Option Str
  | [] => none
  | l@(_ :: rest) =>
    if ("Status:".data).isPrefixOf l then some ((l.drop 7).dropWhile posixSpace)
    else matchStatus rest

/-- One step of the pattern `reRef = RFC([[:digit:]]+)(.*)` at the current
position: `RFC` followed by a maximal nonempty digit run. -/
def tryRef (l : Str) : Option (Str × Str) :=
  if ("RFC".data).isPrefixOf l then
    let ds := (l.drop 3).takeWhile Char.isDigit
    if ds = [] then none else some (ds, (l.drop 3).dropWhile Char.isDigit)
  else none

/-- The unanchored pattern `reRef`: leftmost `RFC<digits>` occurrence. -/
def matchRef : Str → Option (Str × Str)
  | [] => none
  | l@(_ :: rest) =>
    match tryRef l with
    | some r => some r
    | none => matchRef rest

theorem tryRef_length {l ds rest : Str} (h : tryRef l = some (ds, rest)) :
    rest.length < l.length := by
  unfold tryRef at h
  by_cases hp : ("RFC".data).isPrefixOf l
  · rw [if_pos hp] at h
    by_cases hd : (l.drop 3).takeWhile Char.isDigit = []
    · simp [hd] at h
    · simp only [hd, if_false, Option.some.injEq, Prod.mk.injEq] at h
      have hlen : ((l.drop 3).takeWhile Char.isDigit).length
          + ((l.drop 3).dropWhile Char.isDigit).length = (l.drop 3).length := by
        rw [← List.length_append, List.takeWhile_append_dropWhile]
      have hpos : 0 < ((l.drop 3).takeWhile Char.isDigit).length :=
        List.length_pos.mpr hd
      have h3 : l.length ≥ 3 := by
        have := (List.isPrefixOf_iff_prefix.mp hp).length_le
        simpa using this
      have h2 := h.2
      subst h2
      have : (l.drop 3).length = l.length - 3 := List.length_drop 3 l
      omega
  · rw [if_neg hp] at h
    exact absurd h (by simp)

theorem matchRef_length {l ds rest : Str} (h : matchRef l = some (ds, rest)) :
    rest.length < l.length := by
  induction l with
  | nil => simp [matchRef] at h
  | cons c cs ih =>
    unfold matchRef at h
    cases htr : tryRef (c :: cs) with
    | some r =>
      rw [htr] at h
      cases h
      exact tryRef_length htr
    | none =>
      rw [htr] at h
      simp only at h
      have := ih h
      simp only [List.length_cons]
      omega

/-- Recursion core of `parseRefs` with an explicit depth bound (each
extracted reference consumes at least one character). -/
def parseRefsGo : Nat → Str → List Str
  | 0, _ => []
  | fuel + 1, input =>
    match matchRef input with
    | none => []
    | some (r, rest) => r :: parseRefsGo fuel rest

/-- `func parseRefs(input string) []string`: repeatedly extract
`RFC<digits>` references. -/
def parseRefs (input : Str) : List Str := parseRefsGo (input.length + 1) input

theorem matchParams_length {l tok rest : Str} (h : matchParams l = some (tok, rest)) :
    rest.length < l.length := by
  induction l with
  | nil => simp [matchParams] at h
  | cons c cs ih =>
    rw [matchParams] at h
    by_cases hc : c = '('
    · rw [if_pos hc] at h
      have hsplit : (cs.takeWhile (fun x => x ≠ ')')).length
          + (cs.dropWhile (fun x => x ≠ ')')).length = cs.length := by
        rw [← List.length_append, List.takeWhile_append_dropWhile]
      by_cases h1 : cs.dropWhile (fun x => x ≠ ')') = []
      · simp only [h1, if_pos rfl] at h
        have := ih h
        simp only [List.length_cons]
        omega
      · rw [if_neg h1] at h
        by_cases h2 : cs.takeWhile (fun x => x ≠ ')') = []
        · rw [if_pos h2] at h
          have := ih h
          simp only [List.length_cons]
          omega
        · rw [if_neg h2] at h
          cases h
          have htail := List.length_tail (cs.dropWhile (fun x => x ≠ ')'))
          have hpos : 0 < (cs.takeWhile (fun x => x ≠ ')')).length :=
            List.length_pos.mpr h2
          have hpos' : 0 < (cs.dropWhile (fun x => x ≠ ')')).length :=
            List.length_pos.mpr h1
          have : ((cs.dropWhile (fun x => x ≠ ')')).tail).length
              = (cs.dropWhile (fun x => x ≠ ')')).length - 1 :=
            List.length_tail _
          simp only [List.length_cons]
          omega
    · rw [if_neg hc] at h
      have := ih h
      simp only [List.length_cons]
      omega

/-- The body of the annotation-stripping loop of `parseRFC`, classifying one
parenthesized token: forward relations first, then backward relations, then
the lifecycle status (with `GetStatus` panicking — `.error` — on an
unrecognized value), and otherwise an extra `Params` entry. -/
def applyToken (rfc : RFC) (tok : Str) : Except Str RFC :=
  match matchForward tok with
  | some (w, refs) =>
    match (parseRefs refs).foldlM
        (fun m ref => (MakeType w).map (fun t => mapInsert m ref t)) rfc.Forwards with
    | some f => .ok { rfc with Forwards := f }
    | none => .error ("Invalid type ".data ++ w)
  | none =>
    match matchBackward tok with
    | some (w, refs) =>
      match (parseRefs refs).foldlM
          (fun m ref => (MakeType w).map (fun t => mapInsert m ref t)) rfc.Backwards with
      | some b => .ok { rfc with Backwards := b }
      | none => .error ("Invalid type ".data ++ w)
    | none =>
      match matchStatus tok with
      | some v =>
        match GetStatus v with
        | some st => .ok { rfc with Status := st }
        | none => .error ("Unknown status ".data ++ v)
      | none => .ok { rfc with Params := rfc.Params ++ [tok] }

/-- Recursion core of the annotation loop of `parseRFC`, with an explicit
depth bound (each stripped token consumes at least one character). -/
def parseParamsGo : Nat → RFC → Str → Except Str RFC
  | 0, rfc, _ => .ok rfc
  | fuel + 1, rfc, params =>
    match matchParams params with
    | none => .ok rfc
    | some (tok, rest) =>
      match applyToken rfc tok with
      | .ok r => parseParamsGo fuel r rest
      | .error e => .error e

/-- The annotation loop of `parseRFC`: repeatedly strip one leading
parenthesized token until none remains. -/
def parseParams (rfc : RFC) (params : Str) : Except Str RFC :=
  parseParamsGo (params.length + 1) rfc params

/-- `func parseRFC(line string) *RFC`: `.ok none` is the silent `nil`
return on a line that does not match `reRFC`; `.error` is a panic.  Two
panics are possible: when the free text splits into a single segment,
`parts[1:len(parts)-1]` is the out-of-bounds slice `parts[1:0]` (a fatal
runtime error), and classifying an annotation token can panic inside
`MakeType`/`GetStatus`. -/
def parseRFC (line : Str) : Except Str (Option RFC) :=
  match matchRFC line with
  | none => .ok none
  | some (num, free, annot) =>
    let parts := splitSep free
    if parts.2 = [] then .error "slice bounds out of range [1:0]".data
    else
      let rfc : RFC :=
        { Number := num
          Title := parts.1
          Authors := joinSep parts.2.dropLast
          Date := parts.2.getLastD parts.1
          Typ := Current
          Status := Unknown
          Forwards := []
          Backwards := []
          Params := [] }
      (parseParams rfc annot).map some

/-- The two neighbour loops of `count` (`c += count(r, graph, processed)`),
over the concatenated forward and backward reference lists; `f` is the
recursive `count` call at the remaining fuel. -/
def countList (f : List Str → Str → Option (Nat × List Str)) :
    List Str → List Str → Nat → Option (Nat × List Str)
  | graph, [], c => some (c, graph)
  | graph, n :: ns, c =>
    match f graph n with
    | none => none
    | some (c', graph') => countList f graph' ns (c + c')

/-- `func count(id string, graph, processed map[string]*RFC) int`, with the
`graph` map carried as the list of its keys (its values are the
corresponding store records) and an explicit recursion-depth `fuel`; the
callers below supply fuel larger than the store, which never runs out.
`none` is a panic (`GetRFC` on an unknown id) or exhausted fuel. -/
def count (s : Store) (P : List Str) : Nat → List Str → Str → Option (Nat × List Str)
  | 0, _, _ => none
  | fuel + 1, graph, id =>
    if id ∈ P then some (0, graph)
    else if id ∈ graph then some (0, graph)
    else
      match GetRFC s id with
      | none => none
      | some r =>
        countList (count s P fuel) (id :: graph)
          (r.Forwards.map Prod.fst ++ r.Backwards.map Prod.fst) 1

/-- `func countGraph(id string, processed map[string]*RFC) (cnt int, leader *RFC)`:
run `count` with a fresh `graph`, then pick as leader the member whose
`Number` is smallest under Go string comparison (in the store, the record
held under a key has that key as its `Number`, so the keys collected in
`graph` are the member numbers). -/
def countGraph (s : Store) (P : List Str) (id : Str) : Option (Nat × Option Str) :=
  match count s P (s.length + 1) [] id with
  | none => none
  | some (cnt, graph) =>
    if 0 < cnt then
      some (cnt, graph.foldl
        (fun acc m =>
          match acc with
          | none => some m
          | some l => if ltStr m l then some m else some l) none)
    else some (cnt, none)

/-- The two relation loops of `collectEdges`: a forward relation of `id`
yields the edge `id -> r`, a backward relation yields `r -> id`; each edge
is inserted under its canonical `Edge.ID` key before the recursive call
`f` (the `collectEdges` call at the remaining fuel). -/
def collectList (f : List Str → List (Str × Edge) → Str → Option (List Str × List (Str × Edge))) :
    List Str → List (Str × Edge) → Str → Bool → List (Str × Nat) →
    Option (List Str × List (Str × Edge))
  | processed, edges, _, _, [] => some (processed, edges)
  | processed, edges, id, fwd, (r, t) :: ns =>
    let e : Edge := if fwd then ⟨id, r, t⟩ else ⟨r, id, t⟩
    match f processed (mapInsert edges e.ID e) r with
    | none => none
    | some (p', e') => collectList f p' e' id fwd ns

/-- `func collectEdges(id string, processed map[string]*RFC, edges map[string]Edge)`:
depth-first edge collection; the `processed` map is carried as its key
list and `edges` as an association list keyed by `Edge.ID`. -/
def collectEdges (s : Store) :
    Nat → List Str → List (Str × Edge) → Str → Option (List Str × List (Str × Edge))
  | 0, _, _, _ => none
  | fuel + 1, processed, edges, id =>
    if id ∈ processed then some (processed, edges)
    else
      match GetRFC s id with
      | none => none
      | some r =>
        match collectList (collectEdges s fuel) (id :: processed) edges id true r.Forwards with
        | none => none
        | some (p', e') => collectList (collectEdges s fuel) p' e' id false r.Backwards

/-- `type Graph struct`: the Go `Leader *RFC` is represented by the
leader's identifier. -/
structure Graph where
  Leader : Str
  Size : Nat
  deriving DecidableEq, Repr

/-- The global mutable state threaded through `findGraphs`. -/
structure GState where
  processed : List Str
  edgeMap : List (Str × Edge)
  graphs : List Graph
  deriving DecidableEq, Repr

/-- `func findGraphs(rfcs []*RFC, size int)`: sweep the given roots; for
each root whose undiscovered reach is nonempty and meets the size
threshold, record the component and collect its edges starting from the
leader. -/
def findGraphs (s : Store) (size : Int) : List Str → GState → Option GState
  | [], st => some st
  | id :: rest, st =>
    match countGraph s st.processed id with
    | none => none
    | some (cnt, leader) =>
      if size ≤ (cnt : Int) ∧ 0 < cnt then
        match leader with
        | none => none
        | some l =>
          match collectEdges s (s.length + 1) st.processed st.edgeMap l with
          | none => none
          | some (p', e') =>
            findGraphs s size rest ⟨p', e', st.graphs ++ [⟨l, cnt⟩]⟩
      else findGraphs s size rest st

/-- Append `v` to the list held under `k` (Go `m[k] = append(m[k], v)`). -/
def mapAppend {α κ : Type} [DecidableEq κ] (m : List (κ × List α)) (k : κ) (v : α) :
    List (κ × List α) :=
  mapInsert m k ((mapLookup m k).getD [] ++ [v])

/-- The record scan of `printGraph`: minimum and maximum year over the
processed records, the per-year rank lists, and the 3x8
classification/status node buckets, accumulated in store order.  A bad
date or an out-of-range classification/status index is fatal. -/
def scanRecords (processed : List Str) :
    Store → (Int × Int × List (Int × List RFC) × List ((Nat × Nat) × List RFC)) →
    Except Str (Int × Int × List (Int × List RFC) × List ((Nat × Nat) × List RFC))
  | [], acc => .ok acc
  | p :: rest, (yLo, yHi, ranks, buckets) =>
    let rfc := p.2
    if rfc.Number ∈ processed then
      match rfc.Year with
      | none => .error ("Invalid RFC Date: ".data ++ rfc.Date)
      | some year =>
        if 3 ≤ rfc.Typ ∨ 8 ≤ rfc.Status then .error "index out of range".data
        else
          scanRecords processed rest
            (if yLo = 0 ∨ year < yLo then year else yLo,
             if yHi = 0 ∨ yHi < year then year else yHi,
             mapAppend ranks year rfc,
             mapAppend buckets (rfc.Typ, rfc.Status) rfc)
    else scanRecords processed rest (yLo, yHi, ranks, buckets)

/-- The inclusive integer range `a..b` (`for i := a; i <= b; i++`). -/
def intRange (a b : Int) : List Int :=
  if a ≤ b then (List.range (b - a).toNat.succ).map (fun i => a + (i : Int)) else []

/-- The timeline heading of `printGraph`: the year comment, the invisible
chained year skeleton, and the `Legend` sentinel. -/
def timelineHeader (yLo yHi : Int) : Str :=
  "// ".data ++ intRepr yLo ++ "-".data ++ intRepr yHi ++ "\n".data
    ++ "\tnode [shape=plaintext];\n\t".data ++ intRepr yLo
    ++ (intRange (yLo + 1) yHi).foldl (fun acc i => acc ++ " -> ".data ++ intRepr i) []
    ++ ";\n\t".data ++ intRepr yHi ++ " -> Legend [style=invis];\n".data

/-- The node-bucket section of `printGraph`: one style directive per
(classification, status) pair — Go emits the directive even for an empty
bucket — followed by the member node declarations in bucket order.  The
`getD` defaults are unreachable: the iterated indexes all lie inside the
`statusNode` table and the classification range. -/
def nodeSection (buckets : List ((Nat × Nat) × List RFC)) : Str :=
  ((List.range 3).flatMap (fun t => (List.range 8).map (fun st => (t, st)))).foldl
    (fun acc ts =>
      acc ++ "\tnode [".data ++ (StatusNodeStr ts.2).getD [] ++ " ".data
        ++ (TypeNode ts.1).getD [] ++ "]\n".data
        ++ ((mapLookup buckets ts).getD []).foldl
          (fun a rfc => a ++ "\t".data ++ rfc.Number ++ ";\n".data) []) []

/-- The same-rank year clusters of the timeline mode. -/
def ranksSection (yLo yHi : Int) (ranks : List (Int × List RFC)) : Str :=
  (intRange yLo yHi).foldl
    (fun acc i =>
      match mapLookup ranks i with
      | none => acc
      | some arr =>
        acc ++ "\t\x7brank=same ".data ++ intRepr i
          ++ arr.foldl (fun a rfc => a ++ " ".data ++ rfc.Number) []
          ++ "\x7d\n".data) []

/-- The legend of the timeline mode, iterating the `statusName` table in
the order `statusOrder` (one concrete Go map iteration order): one legend
node per status plus the same-rank legend cluster.  `Status.Node` panics
(`.error`) on a status outside the table. -/
def legendSection (statusOrder : List Nat) : Except Str Str :=
  match statusOrder.foldlM
      (fun acc st =>
        match StatusNodeStr st with
        | none => Except.error ("Unknown status ".data ++ natRepr st)
        | some node =>
          Except.ok (acc ++ "\tnode [".data ++ node ++ " style=solid];\n".data
            ++ "\t".data ++ StatusString st ++ ";\n".data)) ([] : Str) with
  | .error e => .error e
  | .ok lines =>
    .ok (lines ++ "\t\x7brank=same Legend".data
      ++ statusOrder.foldl (fun a st => a ++ " ".data ++ StatusString st) []
      ++ "\x7d\n".data)

/-- Go's `less` comparator on edges: by `From`, then by `To`. -/
def edgeLess (a b : Edge) : Bool :=
  if ltStr a.From b.From then true
  else if ltStr b.From a.From then false
  else ltStr a.To b.To

/-- Insert an edge behind every element not strictly greater (the
placement a stable insertion sort gives a later-arriving element). -/
def insEdge (e : Edge) : List Edge → List Edge
  | [] => [e]
  | f :: fs => if edgeLess e f then e :: f :: fs else f :: insEdge e fs

/-- `sort.SliceStable` on the collected edge slice, as a stable insertion
sort under the same comparator. -/
def sortEdges (l : List Edge) : List Edge :=
  l.foldl (fun acc e => insEdge e acc) []

/-- The edge section of `printGraph`: the collected edges sorted by
(From, To), each rendered with its kind's style (`Type.Edge` panics —
`.error` — on a kind that is neither Updated nor Obsoleted). -/
def edgesSection (edges : List Edge) : Except Str Str :=
  (sortEdges edges).foldlM
    (fun acc e =>
      match TypeEdge e.Typ with
      | none => Except.error ("Unknown Type ".data ++ natRepr e.Typ)
      | some sty =>
        Except.ok (acc ++ "\t".data ++ e.From ++ " -> ".data ++ e.To
          ++ sty ++ ";\n".data)) ([] : Str)

/-- `func printGraph(timeline bool)`: the full rendered output, as one
flat character sequence.  `s` is the record store in one concrete map
iteration order; `processed` and `edgeList` are the processed set and the
collected edge values (`edgeMap` iteration order); `statusOrder` is a
`statusName` iteration order. -/
def printGraph (s : Store) (processed : List Str) (edgeList : List Edge)
    (statusOrder : List Nat) (timeline : Bool) : Except Str Str :=
  match scanRecords processed s (0, 0, [], []) with
  | .error e => .error e
  | .ok (yLo, yHi, ranks, buckets) =>
    match (if timeline then legendSection statusOrder else .ok []) with
    | .error e => .error e
    | .ok leg =>
      match edgesSection edgeList with
      | .error e => .error e
      | .ok es =>
        .ok ("digraph rfc \x7b\n".data
          ++ (if timeline then timelineHeader yLo yHi else [])
          ++ nodeSection buckets
          ++ (if timeline then ranksSection yLo yHi ranks else [])
          ++ leg ++ es ++ "\x7d\n".data)

/-! ### Association-list lemmas -/

theorem mapLookup_none_iff {α κ : Type} [DecidableEq κ] (m : List (κ × α)) (k : κ) :
    mapLookup m k = none ↔ k ∉ m.map Prod.fst := by
  induction m with
  | nil => simp [mapLookup]
  | cons p rest ih =>
    obtain ⟨k', v'⟩ := p
    by_cases h : k' = k
    · subst h
      simp [mapLookup]
    · simp only [mapLookup, if_neg h, List.map_cons, List.mem_cons, not_or]
      rw [ih]
      constructor
      · intro hk
        exact ⟨fun he => h he.symm, hk⟩
      · intro hk
        exact hk.2

theorem mapLookup_isSome_iff {α κ : Type} [DecidableEq κ] (m : List (κ × α)) (k : κ) :
    (mapLookup m k).isSome ↔ k ∈ m.map Prod.fst := by
  constructor
  · intro hs
    by_contra hk
    rw [← mapLookup_none_iff] at hk
    rw [hk] at hs
    simp at hs
  · intro hk
    cases hnone : mapLookup m k
    · exact absurd hk ((mapLookup_none_iff m k).mp hnone)
    · simp

theorem mapLookup_mapInsert_self {α κ : Type} [DecidableEq κ]
    (m : List (κ × α)) (k : κ) (v : α) :
    mapLookup (mapInsert m k v) k = some v := by
  induction m with
  | nil => simp [mapInsert, mapLookup]
  | cons p rest ih =>
    obtain ⟨k', v'⟩ := p
    by_cases h : k' = k
    · simp [mapInsert, mapLookup, h]
    · simp [mapInsert, mapLookup, h, ih]

theorem mapLookup_mapInsert_ne {α κ : Type} [DecidableEq κ]
    (m : List (κ × α)) (k k' : κ) (v : α) (h : k' ≠ k) :
    mapLookup (mapInsert m k v) k' = mapLookup m k' := by
  induction m with
  | nil => simp [mapInsert, mapLookup, Ne.symm h]
  | cons p rest ih =>
    obtain ⟨k'', v''⟩ := p
    by_cases h2 : k'' = k
    · subst h2
      simp [mapInsert, mapLookup, Ne.symm h]
    · by_cases h3 : k'' = k'
      · subst h3
        simp [mapInsert, mapLookup, h2]
      · simp [mapInsert, mapLookup, h2, h3, ih]

theorem mapInsert_idem {α κ : Type} [DecidableEq κ] (m : List (κ × α)) (k : κ) (v : α) :
    mapInsert (mapInsert m k v) k v = mapInsert m k v := by
  induction m with
  | nil => simp [mapInsert]
  | cons p rest ih =>
    obtain ⟨k', v'⟩ := p
    by_cases h : k' = k
    · simp [mapInsert, h]
    · simp [mapInsert, h, ih]

theorem mapInsert_keys {α κ : Type} [DecidableEq κ] (m : List (κ × α)) (k : κ) (v : α) :
    (mapInsert m k v).map Prod.fst
      = if k ∈ m.map Prod.fst then m.map Prod.fst else m.map Prod.fst ++ [k] := by
  induction m with
  | nil => simp [mapInsert]
  | cons p rest ih =>
    obtain ⟨k', v'⟩ := p
    by_cases h : k' = k
    · subst h
      simp [mapInsert]
    · simp only [mapInsert, if_neg h, List.map_cons, ih]
      by_cases h2 : k ∈ rest.map Prod.fst
      · simp [h2, Ne.symm h]
      · simp [h2, Ne.symm h]

theorem mapInsert_nodupKeys {α κ : Type} [DecidableEq κ]
    (m : List (κ × α)) (k : κ) (v : α) (h : (m.map Prod.fst).Nodup) :
    ((mapInsert m k v).map Prod.fst).Nodup := by
  rw [mapInsert_keys]
  by_cases h2 : k ∈ m.map Prod.fst
  · simpa [h2] using h
  · simp only [h2, if_false]
    exact List.Nodup.append h (List.nodup_singleton k) (by simpa using h2)

theorem mapInsert_countP {α κ : Type} [DecidableEq κ]
    (m : List (κ × α)) (k : κ) (v : α) (h : (m.map Prod.fst).Nodup) :
    (mapInsert m k v).countP (fun p => p.1 = k) = 1 := by
  induction m with
  | nil => simp [mapInsert, List.countP_cons]
  | cons p rest ih =>
    obtain ⟨k', v'⟩ := p
    simp only [List.map_cons, List.nodup_cons] at h
    by_cases h2 : k' = k
    · subst h2
      have hsimp : mapInsert ((k', v') :: rest) k' v = (k', v) :: rest := by
        simp [mapInsert]
      rw [hsimp, List.countP_cons]
      have hz : rest.countP (fun p => decide (p.1 = k')) = 0 := by
        rw [List.countP_eq_zero]
        intro p hp
        simp only [decide_eq_true_eq]
        intro he
        exact h.1 (he ▸ List.mem_map_of_mem Prod.fst hp)
      simp [hz]
    · simp only [mapInsert, if_neg h2]
      rw [List.countP_cons]
      simp [h2, ih h.2]

/-! ### Claim C8: edge-collection insertion is idempotent on the canonical key -/

/-- Claim C8 (confirmed): edge insertion into the global edge collection is
idempotent on the canonical key `(From, To, Kind)` — which `Edge.ID`
renders as `From:To:Kind` — so inserting the same edge twice (as
`collectEdges` does when it meets one relation from both endpoints) leaves
exactly one binding for that edge, and the rendered output (a function of
the collection) is that of a single insertion. -/
theorem edge_insert_idem (m : List (Str × Edge)) (e : Edge) :
    mapInsert (mapInsert m e.ID e) e.ID e = mapInsert m e.ID e ∧
    mapLookup (mapInsert m e.ID e) e.ID = some e ∧
    ((m.map Prod.fst).Nodup →
      ((mapInsert m e.ID e).map Prod.fst).Nodup ∧
      (mapInsert m e.ID e).countP (fun p => p.1 = e.ID) = 1) := by
  refine ⟨mapInsert_idem m e.ID e, mapLookup_mapInsert_self m e.ID e, fun h => ?_⟩
  exact ⟨mapInsert_nodupKeys m e.ID e h, mapInsert_countP m e.ID e h⟩

/-- Witness for C8 at a concrete edge collection. -/
theorem edge_insert_idem_witness :
    (([("9:9:1".data, Edge.mk "9".data "9".data 1)] : List (Str × Edge)).map
        Prod.fst).Nodup ∧
    ((mapInsert [("9:9:1".data, Edge.mk "9".data "9".data 1)]
        (Edge.mk "5".data "100".data 2).ID (Edge.mk "5".data "100".data 2)).map
        Prod.fst).Nodup ∧
    (mapInsert [("9:9:1".data, Edge.mk "9".data "9".data 1)]
        (Edge.mk "5".data "100".data 2).ID (Edge.mk "5".data "100".data 2)).countP
        (fun p => p.1 = (Edge.mk "5".data "100".data 2).ID) = 1 := by
  have h := edge_insert_idem [("9:9:1".data, Edge.mk "9".data "9".data 1)]
    (Edge.mk "5".data "100".data 2)
  have hnd : (([("9:9:1".data, Edge.mk "9".data "9".data 1)] : List (Str × Edge)).map
      Prod.fst).Nodup := by decide
  exact ⟨hnd, (h.2.2 hnd).1, (h.2.2 hnd).2⟩

/-! ### Date splitting -/

theorem splitSp_cons_sp (rest : Str) :
    splitSp (' ' :: rest) = ([], (splitSp rest).1 :: (splitSp rest).2) := by
  simp [splitSp]

theorem splitSp_cons_ns (c : Char) (rest : Str) (h : c ≠ ' ') :
    splitSp (c :: rest) = (c :: (splitSp rest).1, (splitSp rest).2) := by
  simp [splitSp, h]

theorem splitSp_single_iff (s x : Str) :
    splitSp s = (x, []) ↔ (s = x ∧ ' ' ∉ s) := by
  induction s generalizing x with
  | nil =>
    constructor
    · intro h
      simp only [splitSp, Prod.mk.injEq] at h
      exact ⟨h.1, by simp⟩
    · rintro ⟨h, -⟩
      subst h
      rfl
  | cons c rest ih =>
    by_cases hc : c = ' '
    · subst hc
      rw [splitSp_cons_sp]
      constructor
      · intro h
        rw [Prod.mk.injEq] at h
        exact absurd h.2 (by simp)
      · rintro ⟨-, hs⟩
        exact absurd (List.mem_cons_self _ _) hs
    · rw [splitSp_cons_ns c rest hc]
      constructor
      · intro h
        rw [Prod.mk.injEq] at h
        obtain ⟨h1, h2⟩ := h
        have hrest := (ih (splitSp rest).1).mp (by rw [← h2])
        refine ⟨?_, ?_⟩
        · rw [← h1, ← hrest.1]
        · simp only [List.mem_cons, not_or]
          exact ⟨fun he => hc he.symm, hrest.2⟩
      · rintro ⟨hx, hs⟩
        simp only [List.mem_cons, not_or] at hs
        have hrest := (ih rest).mpr ⟨rfl, hs.2⟩
        rw [hrest, ← hx]

theorem splitSp_pair_iff (s a b : Str) :
    splitSp s = (a, [b]) ↔ (s = a ++ ' ' :: b ∧ ' ' ∉ a ∧ ' ' ∉ b) := by
  induction s generalizing a with
  | nil =>
    constructor
    · intro h
      simp only [splitSp, Prod.mk.injEq] at h
      exact absurd h.2 (by simp)
    · rintro ⟨h, -, -⟩
      exact absurd h.symm (by simp)
  | cons c rest ih =>
    by_cases hc : c = ' '
    · subst hc
      rw [splitSp_cons_sp]
      constructor
      · intro h
        rw [Prod.mk.injEq] at h
        obtain ⟨ha, hb⟩ := h
        rw [List.cons.injEq] at hb
        have hrest := (splitSp_single_iff rest b).mp (by rw [← hb.1, ← hb.2])
        subst ha
        refine ⟨by rw [hrest.1]; rfl, by simp, hrest.1 ▸ hrest.2⟩
      · rintro ⟨hs, ha, hb⟩
        cases a with
        | nil =>
          simp only [List.nil_append, List.cons.injEq, true_and] at hs
          have hrest := (splitSp_single_iff rest b).mpr ⟨hs, hs ▸ hb⟩
          rw [hrest]
        | cons a0 as =>
          simp only [List.cons_append, List.cons.injEq] at hs
          exact absurd (hs.1 ▸ List.mem_cons_self a0 as) ha
    · rw [splitSp_cons_ns c rest hc]
      constructor
      · intro h
        rw [Prod.mk.injEq] at h
        obtain ⟨ha, hb⟩ := h
        have hrest := (ih (splitSp rest).1).mp (by rw [← hb])
        subst ha
        refine ⟨?_, ?_, hrest.2.2⟩
        · rw [List.cons_append, ← hrest.1]
        · simp only [List.mem_cons, not_or]
          exact ⟨fun he => hc he.symm, hrest.2.1⟩
      · rintro ⟨hs, ha, hb⟩
        cases a with
        | nil =>
          simp only [List.nil_append, List.cons.injEq] at hs
          exact absurd hs.1 hc
        | cons a0 as =>
          simp only [List.cons_append, List.cons.injEq] at hs
          simp only [List.mem_cons, not_or] at ha
          have hrest := (ih as).mpr ⟨hs.2, ha.2, hb⟩
          rw [hrest, Prod.mk.injEq]
          exact ⟨by rw [hs.1], rfl⟩

/-! ### Key preservation of the escalation pass -/

theorem setTypeIn_keys (s : Store) (id : Str) (t : Nat) :
    (setTypeIn s id t).map Prod.fst = s.map Prod.fst := by
  unfold setTypeIn
  rw [List.map_map]
  apply List.map_congr_left
  intro p _
  by_cases h : p.1 = id <;> simp [h]

theorem foldl_setTypeIn_keys {α : Type} (g : α → Str) (f : α → Nat) :
    ∀ (l : List α) (s : Store),
      ((l.foldl (fun acc x => setTypeIn acc (g x) (f x)) s).map Prod.fst)
        = s.map Prod.fst
  | [], s => rfl
  | x :: xs, s => by
    rw [List.foldl_cons, foldl_setTypeIn_keys g f xs (setTypeIn s (g x) (f x)),
      setTypeIn_keys]

theorem foldlM_backwards_keys :
    ∀ (l : List (Str × Nat)) (s s' : Store),
      l.foldlM (fun acc p =>
        if (GetRFC acc p.1).isSome then some (setTypeIn acc p.1 p.2) else none) s
        = some s' →
      s'.map Prod.fst = s.map Prod.fst := by
  intro l
  induction l with
  | nil =>
    intro s s' h
    simp only [List.foldlM_nil, Option.pure_def, Option.some.injEq] at h
    rw [h]
  | cons p rest ih =>
    intro s s' h
    rw [List.foldlM_cons] at h
    by_cases hp : (GetRFC s p.1).isSome
    · rw [if_pos hp] at h
      simp only [Option.bind_eq_bind, Option.some_bind] at h
      rw [ih _ _ h, setTypeIn_keys]
    · rw [if_neg hp] at h
      simp at h

theorem SetTypes_keys {s s' : Store} {id : Str} (h : SetTypes s id = some s') :
    s'.map Prod.fst = s.map Prod.fst := by
  unfold SetTypes at h
  cases hr : GetRFC s id with
  | none => rw [hr] at h; exact absurd h (by simp)
  | some r =>
    rw [hr] at h
    simp only at h
    rw [foldlM_backwards_keys _ _ _ h]
    exact foldl_setTypeIn_keys (fun _ => id) Prod.snd r.Forwards s

theorem SetTypesAll_none_of_missing :
    ∀ (ids : List Str) (s : Store) (id : Str), id ∈ ids → GetRFC s id = none →
      SetTypesAll s ids = none := by
  intro ids
  induction ids with
  | nil => intro s id h; simp at h
  | cons id0 rest ih =>
    intro s id hmem hnone
    unfold SetTypesAll at *
    rw [List.foldlM_cons]
    cases hst : SetTypes s id0 with
    | none => simp
    | some s1 =>
      simp only [Option.bind_eq_bind, Option.some_bind]
      rcases List.mem_cons.mp hmem with rfl | hrest
      · exfalso
        unfold SetTypes at hst
        rw [hnone] at hst
        exact absurd hst (by simp)
      · apply ih s1 id hrest
        unfold GetRFC at hnone ⊢
        rw [mapLookup_none_iff] at hnone ⊢
        rw [SetTypes_keys hst]
        exact hnone

theorem scanRecords_error_of_bad_year :
    ∀ (s : Store) (processed : List Str) acc,
      (∃ p ∈ s, p.2.Number ∈ processed ∧ p.2.Year = none) →
      ∃ e, scanRecords processed s acc = .error e := by
  intro s
  induction s with
  | nil =>
    intro processed acc h
    obtain ⟨q, hq, -⟩ := h
    exact absurd hq (List.not_mem_nil q)
  | cons p rest ih =>
    intro processed acc h
    obtain ⟨yLo, yHi, ranks, buckets⟩ := acc
    obtain ⟨q, hq, hqp, hqy⟩ := h
    rcases List.mem_cons.mp hq with rfl | hqrest
    · simp only [scanRecords, if_pos hqp, hqy]
      exact ⟨_, rfl⟩
    · by_cases hp : p.2.Number ∈ processed
      · simp only [scanRecords, if_pos hp]
        cases hy : p.2.Year with
        | none => exact ⟨_, rfl⟩
        | some year =>
          by_cases hidx : 3 ≤ p.2.Typ ∨ 8 ≤ p.2.Status
          · simp only [if_pos hidx]
            exact ⟨_, rfl⟩
          · simp only [if_neg hidx]
            exact ih processed _ ⟨q, hqrest, hqp, hqy⟩
      · simp only [scanRecords, if_neg hp]
        exact ih processed _ ⟨q, hqrest, hqp, hqy⟩

/-! ### Claim C9: the four boundary conditions are fatal -/

/-- Claim C9 (confirmed): the four fatal boundary conditions.  A lookup of
an identifier absent from the store (`GetRFC`), an unrecognized
lifecycle-status token (`GetStatus`), a date that does not split into
exactly two space-separated parts with an integer second part
(`RFC.Year`), and an unrecognized relation-kind token (`MakeType`) are
exactly the `none` cases of the corresponding functions — the embedded
panics.  Moreover the failures abort the surrounding computation with no
partial result: an unknown identifier among the swept ids makes the whole
escalation pass return `none`, and a processed record with a malformed
date makes the whole render return `.error`. -/
theorem boundary_fatal :
    (∀ (s : Store) (id : Str), GetRFC s id = none ↔ id ∉ s.map Prod.fst) ∧
    (∀ v : Str, GetStatus v = none ↔
      v ∉ ["UNKNOWN".data, "HISTORIC".data, "EXPERIMENTAL".data,
           "INFORMATIONAL".data, "DRAFT STANDARD".data, "PROPOSED STANDARD".data,
           "INTERNET STANDARD".data, "BEST CURRENT PRACTICE".data]) ∧
    (∀ v : Str, MakeType v = none ↔
      v ∉ ["Updated".data, "Updates".data, "Obsoleted".data, "Obsoletes".data]) ∧
    (∀ r : RFC, r.Year = none ↔
      ¬ ∃ a b, r.Date = a ++ ' ' :: b ∧ ' ' ∉ a ∧ ' ' ∉ b ∧ (Atoi b).isSome) ∧
    (∀ (s : Store) (ids : List Str) (id : Str), id ∈ ids → GetRFC s id = none →
      SetTypesAll s ids = none) ∧
    (∀ (s : Store) (processed : List Str) (el : List Edge) (so : List Nat) (tl : Bool),
      (∃ p ∈ s, p.2.Number ∈ processed ∧ p.2.Year = none) →
      ∃ e, printGraph s processed el so tl = .error e) := by
  refine ⟨fun s id => mapLookup_none_iff s id, ?_, ?_, ?_, ?_, ?_⟩
  · intro v
    have h := mapLookup_none_iff Statuses v
    unfold GetStatus
    rw [h]
    simp [Statuses]
  · intro v
    constructor
    · intro h hmem
      simp only [List.mem_cons, List.not_mem_nil, or_false] at hmem
      rcases hmem with rfl | rfl | rfl | rfl <;> simp [MakeType] at h
    · intro h
      simp only [List.mem_cons, List.not_mem_nil, or_false, not_or] at h
      simp [MakeType, h.1, h.2.1, h.2.2.1, h.2.2.2]
  · intro r
    constructor
    · intro h hex
      obtain ⟨a, b, hd, ha, hb, hat⟩ := hex
      have hsp := (splitSp_pair_iff r.Date a b).mpr ⟨hd, ha, hb⟩
      unfold RFC.Year at h
      rw [hsp] at h
      simp only at h
      rw [h] at hat
      simp at hat
    · intro h
      unfold RFC.Year
      rcases hsp : splitSp r.Date with ⟨a, t⟩
      match t with
      | [] => simp
      | [b] =>
        simp only
        cases hat : Atoi b with
        | none => rfl
        | some n =>
          exfalso
          have hdec := (splitSp_pair_iff r.Date a b).mp hsp
          exact h ⟨a, b, hdec.1, hdec.2.1, hdec.2.2, by simp [hat]⟩
      | _ :: _ :: _ => simp
  · intro s ids id hmem hnone
    exact SetTypesAll_none_of_missing ids s id hmem hnone
  · intro s processed el so tl h
    obtain ⟨e, he⟩ := scanRecords_error_of_bad_year s processed (0, 0, [], []) h
    refine ⟨e, ?_⟩
    unfold printGraph
    rw [he]

/-- Witness for C9 at concrete inputs: the empty store, the status token
`BOGUS`, the relation word `Foo`, a one-part date, a sweep over an
identifier missing from the store, and a render of a record with a bad
date. -/
theorem boundary_fatal_witness :
    GetRFC ([] : Store) "5".data = none ∧
    GetStatus "BOGUS".data = none ∧
    MakeType "Foo".data = none ∧
    (RFC.mk "1".data [] [] "May".data 0 0 [] [] []).Year = none ∧
    SetTypesAll [] ["5".data] = none ∧
    (∃ e, printGraph [("1".data, RFC.mk "1".data [] [] "May".data 0 0 [] [] [])]
      ["1".data] [] [] false = .error e) := by
  refine ⟨(boundary_fatal.1 [] "5".data).mpr (by decide),
    (boundary_fatal.2.1 "BOGUS".data).mpr (by decide),
    (boundary_fatal.2.2.1 "Foo".data).mpr (by decide),
    (boundary_fatal.2.2.2.1 (RFC.mk "1".data [] [] "May".data 0 0 [] [] [])).mpr ?_,
    boundary_fatal.2.2.2.2.1 [] ["5".data] "5".data (by decide) (by decide),
    boundary_fatal.2.2.2.2.2 _ _ _ _ _
      ⟨("1".data, RFC.mk "1".data [] [] "May".data 0 0 [] [] []), by decide,
        by decide, by decide⟩⟩
  rintro ⟨a, b, hd, ha, hb, hat⟩
  have : splitSp "May".data = (a, [b]) := (splitSp_pair_iff "May".data a b).mpr ⟨hd, ha, hb⟩
  have h2 : splitSp "May".data = ("May".data, []) := by decide
  rw [h2] at this
  simp at this

/-! ### Characterization of the escalation pass -/

theorem mapLookup_some_mem {α κ : Type} [DecidableEq κ]
    {m : List (κ × α)} {k : κ} {v : α} (h : mapLookup m k = some v) : (k, v) ∈ m := by
  induction m with
  | nil => simp [mapLookup] at h
  | cons p rest ih =>
    obtain ⟨k', v'⟩ := p
    by_cases hk : k' = k
    · subst hk
      rw [show mapLookup ((k', v') :: rest) k' = some v' by simp [mapLookup]] at h
      cases h
      exact List.mem_cons_self _ _
    · simp only [mapLookup, if_neg hk] at h
      exact List.mem_cons_of_mem _ (ih h)

theorem mapLookup_of_mem_nodup {α κ : Type} [DecidableEq κ]
    {m : List (κ × α)} {k : κ} {v : α} (hnd : (m.map Prod.fst).Nodup)
    (h : (k, v) ∈ m) : mapLookup m k = some v := by
  induction m with
  | nil => simp at h
  | cons p rest ih =>
    obtain ⟨k', v'⟩ := p
    simp only [List.map_cons, List.nodup_cons] at hnd
    rcases List.mem_cons.mp h with heq | hmem
    · rw [Prod.mk.injEq] at heq
      obtain ⟨h1, h2⟩ := heq
      subst h1; subst h2
      simp [mapLookup]
    · by_cases hk : k' = k
      · subst hk
        exact absurd (List.mem_map_of_mem Prod.fst hmem) hnd.1
      · simp only [mapLookup, if_neg hk]
        exact ih hnd.2 hmem

/-- `SetType` escalates to the maximum of the old classification and the
relation kind. -/
theorem SetType_eq_max (r : RFC) (t : Nat) :
    r.SetType t = { r with Typ := max r.Typ t } := by
  unfold RFC.SetType
  by_cases h : r.Typ < t
  · rw [if_pos h, Nat.max_eq_right (Nat.le_of_lt h)]
  · rw [if_neg h, Nat.max_eq_left (Nat.le_of_not_lt h)]

theorem rfc_typ_eta (r : RFC) : { r with Typ := r.Typ } = r := rfl

theorem mapLookup_map_values (f : Str → RFC → RFC) (s : Store) (x : Str) :
    mapLookup (s.map (fun p => (p.1, f p.1 p.2))) x = (mapLookup s x).map (f x) := by
  induction s with
  | nil => rfl
  | cons p rest ih =>
    obtain ⟨k, v⟩ := p
    by_cases h : k = x
    · subst h
      simp [mapLookup]
    · simp [mapLookup, h, ih]

theorem setTypeIn_eq_mapv (s : Store) (id : Str) (t : Nat) :
    setTypeIn s id t = s.map (fun p => (p.1, if p.1 = id then p.2.SetType t else p.2)) := by
  unfold setTypeIn
  apply List.map_congr_left
  intro p _
  by_cases h : p.1 = id <;> simp [h]

/-- One entry's worth of escalation operations aimed at `x`: the forward
kinds when `x` is the owner, then the backward kinds referencing `x`. -/
def opsOne (id : Str) (r : RFC) (x : Str) : List Nat :=
  (if x = id then r.Forwards.map Prod.snd else [])
    ++ (r.Backwards.filter (fun q => q.1 = x)).map Prod.snd

/-- All escalation operations aimed at `x` over the sweep `ids`. -/
def passOps (s0 : Store) (ids : List Str) (x : Str) : List Nat :=
  ids.flatMap (fun id =>
    match GetRFC s0 id with
    | none => []
    | some r => opsOne id r x)

/-- The escalation pass in closed form: every record's classification is
the maximum of its initial classification and all operations aimed at it. -/
def passResult (s0 : Store) (ids : List Str) : Store :=
  s0.map (fun p => (p.1, { p.2 with Typ := (passOps s0 ids p.1).foldl max p.2.Typ }))

theorem foldl_setTypeIn_eq :
    ∀ (ops : List (Str × Nat)) (u : Store),
      ops.foldl (fun acc q => setTypeIn acc q.1 q.2) u
        = u.map (fun p => (p.1,
            { p.2 with Typ :=
                ((ops.filter (fun q => q.1 = p.1)).map Prod.snd).foldl max p.2.Typ }))
  | [], u => by
    simp only [List.foldl_nil, List.filter_nil, List.map_nil, rfc_typ_eta]
    exact (List.map_id u).symm ▸ (List.map_congr_left (fun p _ => Prod.mk.eta)).symm
  | q :: rest, u => by
    rw [List.foldl_cons, foldl_setTypeIn_eq rest (setTypeIn u q.1 q.2),
      setTypeIn_eq_mapv, List.map_map]
    apply List.map_congr_left
    intro p _
    simp only [Function.comp]
    by_cases h : p.1 = q.1
    · rw [if_pos h, SetType_eq_max,
        List.filter_cons_of_pos (by simpa using h.symm)]
      rfl
    · rw [if_neg h,
        List.filter_cons_of_neg (by simpa using fun he => h he.symm)]

theorem foldlM_guarded_eq :
    ∀ (l : List (Str × Nat)) (u : Store), (∀ q ∈ l, q.1 ∈ u.map Prod.fst) →
      l.foldlM (fun acc q =>
          if (GetRFC acc q.1).isSome then some (setTypeIn acc q.1 q.2) else none) u
        = some (l.foldl (fun acc q => setTypeIn acc q.1 q.2) u)
  | [], u, _ => rfl
  | q :: rest, u, h => by
    rw [List.foldlM_cons]
    have hq : (GetRFC u q.1).isSome := by
      unfold GetRFC
      rw [mapLookup_isSome_iff]
      exact h q (List.mem_cons_self _ _)
    rw [if_pos hq]
    simp only [Option.bind_eq_bind, Option.some_bind, List.foldl_cons]
    apply foldlM_guarded_eq rest (setTypeIn u q.1 q.2)
    intro p hp
    rw [setTypeIn_keys]
    exact h p (List.mem_cons_of_mem _ hp)

theorem filter_map_const_key (l : List (Str × Nat)) (idv x : Str) :
    ((l.map (fun q => (idv, q.2))).filter (fun q => q.1 = x)).map Prod.snd
      = if idv = x then l.map Prod.snd else [] := by
  by_cases h : idv = x
  · subst h
    rw [if_pos rfl]
    induction l with
    | nil => simp
    | cons q rest ih => simp [List.filter_cons, ih]
  · rw [if_neg h]
    induction l with
    | nil => simp
    | cons q rest ih => simp [List.filter_cons, h, ih]

/-- Keys are untouched by an entry-wise value map. -/
theorem map_entry_keys (f : Str → RFC → RFC) (u : Store) :
    (u.map (fun p => (p.1, f p.1 p.2))).map Prod.fst = u.map Prod.fst := by
  rw [List.map_map]
  exact List.map_congr_left (fun p _ => rfl)

/-- `SetTypes` of one record in closed form. -/
theorem SetTypes_eq (u : Store) (id : Str) (r : RFC) (hr : GetRFC u id = some r)
    (hcl : ∀ q ∈ r.Backwards, q.1 ∈ u.map Prod.fst) :
    SetTypes u id = some (u.map (fun p => (p.1,
      { p.2 with Typ := (opsOne id r p.1).foldl max p.2.Typ }))) := by
  unfold SetTypes
  rw [hr]
  simp only
  rw [show r.Forwards.foldl (fun acc p => setTypeIn acc id p.2) u
      = (r.Forwards.map (fun p => (id, p.2))).foldl (fun acc q => setTypeIn acc q.1 q.2) u
    from (List.foldl_map (fun (p : Str × Nat) => (id, p.2))
      (fun acc (q : Str × Nat) => setTypeIn acc q.1 q.2) r.Forwards u).symm]
  rw [foldl_setTypeIn_eq]
  rw [foldlM_guarded_eq _ _ (by
    intro q hq
    rw [map_entry_keys (fun k v =>
      { v with Typ := (((r.Forwards.map (fun p => (id, p.2))).filter
          (fun q => q.1 = k)).map Prod.snd).foldl max v.Typ }) u]
    exact hcl q hq)]
  rw [foldl_setTypeIn_eq, List.map_map]
  refine congrArg some ?_
  apply List.map_congr_left
  intro p _
  simp only [Function.comp]
  rw [filter_map_const_key]
  unfold opsOne
  by_cases h : p.1 = id
  · rw [if_pos (show id = p.1 from h.symm), if_pos h, List.foldl_append]
  · rw [if_neg (show ¬ id = p.1 from fun he => h he.symm), if_neg h, List.nil_append,
      List.foldl_nil]

/-- Well-formedness: every backward reference resolves in the store. -/
def bwdClosed (s : Store) : Prop :=
  ∀ p ∈ s, ∀ q ∈ p.2.Backwards, q.1 ∈ s.map Prod.fst

theorem passResult_keys (s0 : Store) (ids : List Str) :
    (passResult s0 ids).map Prod.fst = s0.map Prod.fst := by
  unfold passResult
  rw [List.map_map]
  exact List.map_congr_left (fun p _ => rfl)

theorem passResult_nil (s0 : Store) : passResult s0 [] = s0 := by
  unfold passResult
  have : ∀ p : Str × RFC, (p.1,
      { p.2 with Typ := (passOps s0 [] p.1).foldl max p.2.Typ }) = p := by
    intro p
    simp only [passOps, List.flatMap_nil, List.foldl_nil, rfc_typ_eta, Prod.mk.eta]
  rw [List.map_congr_left (fun p _ => this p)]
  simp

theorem passOps_append (s0 : Store) (ids1 ids2 : List Str) (x : Str) :
    passOps s0 (ids1 ++ ids2) x = passOps s0 ids1 x ++ passOps s0 ids2 x := by
  unfold passOps
  rw [List.flatMap_append]

theorem SetTypesAll_from (s0 : Store) (hcl : bwdClosed s0) :
    ∀ (ids2 ids1 : List Str), (∀ id ∈ ids2, id ∈ s0.map Prod.fst) →
      ids2.foldlM SetTypes (passResult s0 ids1)
        = some (passResult s0 (ids1 ++ ids2))
  | [], ids1, _ => by rw [List.append_nil]; rfl
  | id :: rest, ids1, hmem => by
    rw [List.foldlM_cons]
    have hid : id ∈ s0.map Prod.fst := hmem id (List.mem_cons_self _ _)
    obtain ⟨r, hr⟩ := Option.isSome_iff_exists.mp
      ((mapLookup_isSome_iff s0 id).mpr hid)
    have hrmem : (id, r) ∈ s0 := mapLookup_some_mem hr
    have hr' : GetRFC (passResult s0 ids1) id
        = some { r with Typ := (passOps s0 ids1 id).foldl max r.Typ } := by
      unfold GetRFC passResult
      rw [mapLookup_map_values (fun k v =>
        { v with Typ := (passOps s0 ids1 k).foldl max v.Typ }) s0 id]
      rw [show mapLookup s0 id = some r from hr]
      rfl
    have hstep := SetTypes_eq (passResult s0 ids1) id
      { r with Typ := (passOps s0 ids1 id).foldl max r.Typ } hr'
      (by
        intro q hq
        rw [passResult_keys]
        exact hcl (id, r) hrmem q hq)
    rw [hstep]
    simp only [Option.bind_eq_bind, Option.some_bind]
    have hrw : (passResult s0 ids1).map (fun p => (p.1,
        { p.2 with Typ := (opsOne id
            { r with Typ := (passOps s0 ids1 id).foldl max r.Typ } p.1).foldl max p.2.Typ }))
        = passResult s0 (ids1 ++ [id]) := by
      unfold passResult
      rw [List.map_map]
      apply List.map_congr_left
      intro p _
      simp only [Function.comp]
      rw [passOps_append, List.foldl_append]
      have hops : passOps s0 [id] p.1 = opsOne id r p.1 := by
        unfold passOps GetRFC
        rw [List.flatMap_singleton, hr]
      rw [hops]
      rfl
    rw [hrw]
    have : ids1 ++ [id] ++ rest = ids1 ++ (id :: rest) := by simp
    rw [← this]
    exact SetTypesAll_from s0 hcl rest (ids1 ++ [id])
      (fun i hi => hmem i (List.mem_cons_of_mem _ hi))

/-- The escalation pass of the driver, in closed form. -/
theorem SetTypesAll_characterization (s0 : Store) (ids : List Str)
    (hcl : bwdClosed s0) (hids : ∀ id ∈ ids, id ∈ s0.map Prod.fst) :
    SetTypesAll s0 ids = some (passResult s0 ids) := by
  have h := SetTypesAll_from s0 hcl ids [] hids
  rw [passResult_nil] at h
  rw [List.nil_append] at h
  exact h

theorem foldl_max_init_le : ∀ (l : List Nat) (b : Nat), b ≤ l.foldl max b
  | [], _ => Nat.le_refl _
  | x :: xs, b =>
    Nat.le_trans (Nat.le_max_left b x) (foldl_max_init_le xs (max b x))

theorem foldl_max_le_mem : ∀ {l : List Nat} {a : Nat} (b : Nat), a ∈ l → a ≤ l.foldl max b := by
  intro l
  induction l with
  | nil => intro a b h; simp at h
  | cons x xs ih =>
    intro a b h
    rcases List.mem_cons.mp h with rfl | hx
    · exact Nat.le_trans (Nat.le_max_right b a) (foldl_max_init_le xs (max b a))
    · exact ih (max b x) hx

theorem foldl_max_perm {l1 l2 : List Nat} (h : l1.Perm l2) (b : Nat) :
    l1.foldl max b = l2.foldl max b :=
  h.foldl_eq' (fun x _ y _ z => by omega) b

/-! ### Claim C5: the escalation pass is order-independent -/

/-- Claim C5 (confirmed): the final classification of every record after
the escalation pass does not depend on the iteration order in which
`SetTypes` is applied to the records of the store: for any two iteration
orders (permutations of the store's keys), the pass yields the same store,
because each escalation step is a monotone maximum.  (The hypotheses are
the well-formedness the real driver guarantees: backward references
resolve, and the swept identifiers are exactly the stored keys.) -/
theorem pass_order_independent (s0 : Store) (ids1 ids2 : List Str)
    (hcl : bwdClosed s0)
    (h1 : ids1.Perm (s0.map Prod.fst)) (h2 : ids2.Perm (s0.map Prod.fst)) :
    SetTypesAll s0 ids1 = SetTypesAll s0 ids2 := by
  rw [SetTypesAll_characterization s0 ids1 hcl (fun id h => h1.mem_iff.mp h),
    SetTypesAll_characterization s0 ids2 hcl (fun id h => h2.mem_iff.mp h)]
  refine congrArg some ?_
  unfold passResult
  apply List.map_congr_left
  intro p _
  have hperm : (passOps s0 ids1 p.1).Perm (passOps s0 ids2 p.1) :=
    (h1.trans h2.symm).flatMap_right _
  rw [foldl_max_perm hperm]

/-- A symmetric two-record store: RFC 50 is (Obsoleted by RFC100), RFC 100
(Obsoletes RFC50). -/
def wR50 : RFC :=
  { Number := "50".data, Title := "T50".data, Authors := "A".data,
    Date := "April 1989".data, Typ := Current, Status := Historic,
    Forwards := [("100".data, Obsoleted)], Backwards := [], Params := [] }

/-- The partner record of `wR50`. -/
def wR100 : RFC :=
  { Number := "100".data, Title := "T100".data, Authors := "A".data,
    Date := "May 1990".data, Typ := Current, Status := Unknown,
    Forwards := [], Backwards := [("50".data, Obsoleted)], Params := [] }

/-- The two-record store holding `wR50` and `wR100`. -/
def wStore : Store := [("50".data, wR50), ("100".data, wR100)]

/-- The store after the escalation pass over `wStore`. -/
def wStoreAfter : Store :=
  match SetTypesAll wStore (wStore.map Prod.fst) with
  | some s => s
  | none => []

/-- Witness for C5: the pass over the concrete store `wStore` gives the
same result under both iteration orders. -/
theorem pass_order_independent_witness :
    SetTypesAll wStore ["50".data, "100".data]
      = SetTypesAll wStore ["100".data, "50".data] :=
  pass_order_independent wStore ["50".data, "100".data] ["100".data, "50".data]
    (by unfold bwdClosed; decide) (by decide) (by decide)

/-! ### Claim C1: what the escalation pass actually touches -/

/-- The record `100 (Obsoletes RFC50)`: its only relation is a backward
`Obsoletes` relation. -/
def cexR100 : RFC :=
  { Number := "100".data, Title := "T100".data, Authors := "A".data,
    Date := "May 1990".data, Typ := Current, Status := Unknown,
    Forwards := [], Backwards := [("50".data, Obsoleted)], Params := [] }

/-- A plain record `50` with no relations. -/
def cexR50 : RFC :=
  { Number := "50".data, Title := "T50".data, Authors := "A".data,
    Date := "April 1989".data, Typ := Current, Status := Unknown,
    Forwards := [], Backwards := [], Params := [] }

/-- The two-record store for the C1 counterexample. -/
def cexStore : Store := [("100".data, cexR100), ("50".data, cexR50)]

/-- Counterexample to claim C1 as stated: in `cexStore`, record `100` is
touched by an `Obsoleted` relation (it declares the backward relation
`Obsoletes 50`), yet after the full escalation pass its classification is
still `Current` — the kind is NOT propagated to the record declaring a
backward relation, only to the record it references. -/
theorem escalation_cex :
    ("50".data, Obsoleted) ∈ cexR100.Backwards ∧
    cexR100.Forwards = [] ∧
    (SetTypesAll cexStore (cexStore.map Prod.fst)).bind
      (fun s' => (GetRFC s' "100".data).map RFC.Typ) = some Current := by
  decide

/-- Claim C1 (corrected): after the one-time escalation pass, a forward
relation escalates the classification of the record DECLARING it, and a
backward relation escalates the classification of the record it
REFERENCES (not the declarer); in particular every record declaring a
forward `Obsoleted` relation, and every record referenced by a backward
`Obsoleted` relation, ends with classification at least `Obsoleted` and
so different from `Current`.  A record whose only relation is a backward
`Obsoletes` relation is NOT itself escalated by it (see the
counterexample). -/
theorem escalation_amended (s0 s' : Store) (ids : List Str)
    (hnd : (s0.map Prod.fst).Nodup) (hcl : bwdClosed s0)
    (hids : ids.Perm (s0.map Prod.fst))
    (hrun : SetTypesAll s0 ids = some s') :
    ∀ k r, (k, r) ∈ s0 →
      (∀ q ∈ r.Forwards, ∃ r', GetRFC s' k = some r' ∧ q.2 ≤ r'.Typ ∧
        (q.2 = Obsoleted → r'.Typ ≠ Current)) ∧
      (∀ q ∈ r.Backwards, ∃ r', GetRFC s' q.1 = some r' ∧ q.2 ≤ r'.Typ ∧
        (q.2 = Obsoleted → r'.Typ ≠ Current)) := by
  intro k r hkr
  have hrk : GetRFC s0 k = some r := mapLookup_of_mem_nodup hnd hkr
  have hkids : k ∈ ids := hids.mem_iff.mpr (List.mem_map_of_mem Prod.fst hkr)
  have hchar := SetTypesAll_characterization s0 ids hcl (fun id h => hids.mem_iff.mp h)
  rw [hchar] at hrun
  have hs' : s' = passResult s0 ids := by
    injection hrun with h
    exact h.symm
  subst hs'
  constructor
  · intro q hq
    refine ⟨{ r with Typ := (passOps s0 ids k).foldl max r.Typ }, ?_, ?_, ?_⟩
    · unfold GetRFC passResult
      rw [mapLookup_map_values (fun kk v =>
        { v with Typ := (passOps s0 ids kk).foldl max v.Typ }) s0 k]
      rw [show mapLookup s0 k = some r from hrk]
      rfl
    · apply foldl_max_le_mem
      apply List.mem_flatMap.mpr
      refine ⟨k, hkids, ?_⟩
      rw [hrk]
      unfold opsOne
      apply List.mem_append_left
      rw [if_pos rfl]
      exact List.mem_map_of_mem Prod.snd hq
    · intro ho
      have hle : q.2 ≤ (passOps s0 ids k).foldl max r.Typ := by
        apply foldl_max_le_mem
        apply List.mem_flatMap.mpr
        refine ⟨k, hkids, ?_⟩
        rw [hrk]
        unfold opsOne
        apply List.mem_append_left
        rw [if_pos rfl]
        exact List.mem_map_of_mem Prod.snd hq
      rw [ho] at hle
      unfold Obsoleted at hle
      unfold Current
      simp only
      omega
  · intro q hq
    have hq1 : q.1 ∈ s0.map Prod.fst := hcl (k, r) hkr q hq
    obtain ⟨r2, hr2⟩ := Option.isSome_iff_exists.mp
      ((mapLookup_isSome_iff s0 q.1).mpr hq1)
    have hqops : q.2 ∈ passOps s0 ids q.1 := by
      apply List.mem_flatMap.mpr
      refine ⟨k, hkids, ?_⟩
      rw [hrk]
      unfold opsOne
      apply List.mem_append_right
      apply List.mem_map_of_mem Prod.snd
      exact List.mem_filter.mpr ⟨hq, by simp⟩
    refine ⟨{ r2 with Typ := (passOps s0 ids q.1).foldl max r2.Typ }, ?_, ?_, ?_⟩
    · unfold GetRFC passResult
      rw [mapLookup_map_values (fun kk v =>
        { v with Typ := (passOps s0 ids kk).foldl max v.Typ }) s0 q.1]
      rw [show mapLookup s0 q.1 = some r2 from hr2]
      rfl
    · exact foldl_max_le_mem r2.Typ hqops
    · intro ho
      have hle := foldl_max_le_mem r2.Typ hqops
      rw [ho] at hle
      unfold Obsoleted at hle
      unfold Current
      simp only
      omega

/-- Witness for the corrected C1 at the concrete symmetric store `wStore`:
record `100` declares `Obsoletes 50`, and after the pass the referenced
record `50` is escalated. -/
theorem escalation_amended_witness :
    (∀ q ∈ wR100.Forwards, ∃ r', GetRFC wStoreAfter "100".data = some r' ∧
      q.2 ≤ r'.Typ ∧ (q.2 = Obsoleted → r'.Typ ≠ Current)) ∧
    (∀ q ∈ wR100.Backwards, ∃ r', GetRFC wStoreAfter q.1 = some r' ∧
      q.2 ≤ r'.Typ ∧ (q.2 = Obsoleted → r'.Typ ≠ Current)) :=
  escalation_amended wStore wStoreAfter (wStore.map Prod.fst)
    (by decide) (by unfold bwdClosed; decide) (List.Perm.refl _) (by decide)
    "100".data wR100 (by decide)

/-! ### Unfolding laws of the fuelled parsing loops -/

theorem splitSepGo_irrel : ∀ (f1 f2 : Nat) (s : Str), s.length < f1 → s.length < f2 →
    splitSepGo f1 s = splitSepGo f2 s := by
  intro f1
  induction f1 with
  | zero => intro f2 s h1 _; omega
  | succ f ih =>
    intro f2 s h1 h2
    cases f2 with
    | zero => omega
    | succ f2' =>
      cases s with
      | nil => rfl
      | cons c rest =>
        simp only [splitSepGo]
        simp only [List.length_cons] at h1 h2
        have htail := List.length_tail rest
        by_cases hc : c = '.' ∧ rest.head? = some ' '
        · rw [if_pos hc, if_pos hc,
            ih f2' rest.tail (by omega) (by omega)]
        · rw [if_neg hc, if_neg hc, ih f2' rest (by omega) (by omega)]

theorem splitSep_cons (c : Char) (rest : Str) :
    splitSep (c :: rest)
      = if c = '.' ∧ rest.head? = some ' ' then
          ([], (splitSep rest.tail).1 :: (splitSep rest.tail).2)
        else (c :: (splitSep rest).1, (splitSep rest).2) := by
  unfold splitSep
  simp only [List.length_cons, splitSepGo]
  have htail := List.length_tail rest
  by_cases hc : c = '.' ∧ rest.head? = some ' '
  · rw [if_pos hc, if_pos hc,
      splitSepGo_irrel (rest.length + 1) (rest.tail.length + 1) rest.tail
        (by omega) (by omega)]
  · rw [if_neg hc, if_neg hc]

theorem parseRefsGo_irrel : ∀ (f1 f2 : Nat) (s : Str), s.length < f1 → s.length < f2 →
    parseRefsGo f1 s = parseRefsGo f2 s := by
  intro f1
  induction f1 with
  | zero => intro f2 s h1 _; omega
  | succ f ih =>
    intro f2 s h1 h2
    cases f2 with
    | zero => omega
    | succ f2' =>
      simp only [parseRefsGo]
      cases hm : matchRef s with
      | none => rfl
      | some pr =>
        obtain ⟨r, rest⟩ := pr
        dsimp only
        have hlen := matchRef_length hm
        rw [ih f2' rest (by omega) (by omega)]

theorem parseRefs_eq (input : Str) :
    parseRefs input
      = match matchRef input with
        | none => []
        | some (r, rest) => r :: parseRefs rest := by
  unfold parseRefs
  simp only [parseRefsGo]
  cases hm : matchRef input with
  | none => rfl
  | some pr =>
    obtain ⟨r, rest⟩ := pr
    dsimp only
    have hlen := matchRef_length hm
    rw [parseRefsGo_irrel input.length (rest.length + 1) rest (by omega) (by omega)]
    simp only [parseRefsGo]

theorem parseParamsGo_irrel : ∀ (f1 f2 : Nat) (rfc : RFC) (s : Str),
    s.length < f1 → s.length < f2 →
    parseParamsGo f1 rfc s = parseParamsGo f2 rfc s := by
  intro f1
  induction f1 with
  | zero => intro f2 rfc s h1 _; omega
  | succ f ih =>
    intro f2 rfc s h1 h2
    cases f2 with
    | zero => omega
    | succ f2' =>
      simp only [parseParamsGo]
      cases hm : matchParams s with
      | none => rfl
      | some pr =>
        obtain ⟨tok, rest⟩ := pr
        dsimp only
        have hlen := matchParams_length hm
        cases applyToken rfc tok with
        | ok r => exact ih f2' r rest (by omega) (by omega)
        | error e => rfl

theorem parseParams_eq (rfc : RFC) (params : Str) :
    parseParams rfc params
      = match matchParams params with
        | none => .ok rfc
        | some (tok, rest) =>
          match applyToken rfc tok with
          | .ok r => parseParams r rest
          | .error e => .error e := by
  unfold parseParams
  simp only [parseParamsGo]
  cases hm : matchParams params with
  | none => rfl
  | some pr =>
    obtain ⟨tok, rest⟩ := pr
    dsimp only
    have hlen := matchParams_length hm
    cases applyToken rfc tok with
    | ok r =>
      exact parseParamsGo_irrel params.length (rest.length + 1) r rest
        (by omega) (by omega)
    | error e => rfl

/-! ### Claim C10: one relation kind per referenced identifier -/

theorem foldlM_some_insert :
    ∀ (refs : List Str) (t : Nat) (m : List (Str × Nat)),
      refs.foldlM (fun mm ref => some (mapInsert mm ref t)) m
        = some (refs.foldl (fun mm ref => mapInsert mm ref t) m)
  | [], _, _ => rfl
  | ref :: rest, t, m => by
    rw [List.foldlM_cons, List.foldl_cons]
    simp only [Option.bind_eq_bind, Option.some_bind]
    exact foldlM_some_insert rest t (mapInsert m ref t)

theorem foldl_insert_nodup :
    ∀ (refs : List Str) (t : Nat) (m : List (Str × Nat)),
      (m.map Prod.fst).Nodup →
      ((refs.foldl (fun mm ref => mapInsert mm ref t) m).map Prod.fst).Nodup
  | [], _, _, hnd => hnd
  | ref :: rest, t, m, hnd => by
    rw [List.foldl_cons]
    exact foldl_insert_nodup rest t (mapInsert m ref t) (mapInsert_nodupKeys m ref t hnd)

theorem foldlM_insert_nodup :
    ∀ (refs : List Str) (w : Str) (m m' : List (Str × Nat)),
      refs.foldlM (fun mm ref => (MakeType w).map (fun t => mapInsert mm ref t)) m
        = some m' →
      (m.map Prod.fst).Nodup → (m'.map Prod.fst).Nodup := by
  intro refs w m m' h hnd
  cases hw : MakeType w with
  | some t =>
    rw [hw] at h
    simp only [Option.map_some'] at h
    rw [foldlM_some_insert] at h
    cases h
    exact foldl_insert_nodup refs t m hnd
  | none =>
    rw [hw] at h
    cases refs with
    | nil =>
      simp only [List.foldlM_nil, Option.pure_def, Option.some.injEq] at h
      rw [← h]
      exact hnd
    | cons a as =>
      rw [List.foldlM_cons] at h
      exact absurd h (by simp)

theorem applyToken_nodup {r r' : RFC} {tok : Str} (h : applyToken r tok = .ok r')
    (hf : (r.Forwards.map Prod.fst).Nodup) (hb : (r.Backwards.map Prod.fst).Nodup) :
    (r'.Forwards.map Prod.fst).Nodup ∧ (r'.Backwards.map Prod.fst).Nodup := by
  unfold applyToken at h
  cases hmf : matchForward tok with
  | some pr =>
    obtain ⟨w, refs⟩ := pr
    rw [hmf] at h
    dsimp only at h
    cases hfold : (parseRefs refs).foldlM
        (fun m ref => (MakeType w).map (fun t => mapInsert m ref t)) r.Forwards with
    | none => rw [hfold] at h; exact absurd h (by simp)
    | some f =>
      rw [hfold] at h
      simp only [Except.ok.injEq] at h
      rw [← h]
      exact ⟨foldlM_insert_nodup (parseRefs refs) w r.Forwards f hfold hf, hb⟩
  | none =>
    rw [hmf] at h
    dsimp only at h
    cases hmb : matchBackward tok with
    | some pr =>
      obtain ⟨w, refs⟩ := pr
      rw [hmb] at h
      dsimp only at h
      cases hfold : (parseRefs refs).foldlM
          (fun m ref => (MakeType w).map (fun t => mapInsert m ref t)) r.Backwards with
      | none => rw [hfold] at h; exact absurd h (by simp)
      | some b =>
        rw [hfold] at h
        simp only [Except.ok.injEq] at h
        rw [← h]
        exact ⟨hf, foldlM_insert_nodup (parseRefs refs) w r.Backwards b hfold hb⟩
    | none =>
      rw [hmb] at h
      dsimp only at h
      cases hms : matchStatus tok with
      | some v =>
        rw [hms] at h
        dsimp only at h
        cases hgs : GetStatus v with
        | none => rw [hgs] at h; exact absurd h (by simp)
        | some st =>
          rw [hgs] at h
          simp only [Except.ok.injEq] at h
          rw [← h]
          exact ⟨hf, hb⟩
      | none =>
        rw [hms] at h
        simp only [Except.ok.injEq] at h
        rw [← h]
        exact ⟨hf, hb⟩

theorem parseParams_nodup :
    ∀ (n : Nat) (params : Str), params.length ≤ n → ∀ (r r' : RFC),
      parseParams r params = .ok r' →
      (r.Forwards.map Prod.fst).Nodup → (r.Backwards.map Prod.fst).Nodup →
      (r'.Forwards.map Prod.fst).Nodup ∧ (r'.Backwards.map Prod.fst).Nodup := by
  intro n
  induction n with
  | zero =>
    intro params hlen r r' h hf hb
    have hp : params = [] := List.eq_nil_of_length_eq_zero (Nat.le_zero.mp hlen)
    subst hp
    rw [parseParams_eq] at h
    simp only [show matchParams [] = none from rfl] at h
    cases h
    exact ⟨hf, hb⟩
  | succ n ih =>
    intro params hlen r r' h hf hb
    rw [parseParams_eq] at h
    cases hm : matchParams params with
    | none =>
      rw [hm] at h
      cases h
      exact ⟨hf, hb⟩
    | some pr =>
      obtain ⟨tok, rest⟩ := pr
      rw [hm] at h
      dsimp only at h
      have hlen2 := matchParams_length hm
      cases happ : applyToken r tok with
      | error e => rw [happ] at h; exact absurd h (by simp)
      | ok r2 =>
        rw [happ] at h
        dsimp only at h
        have ⟨hf2, hb2⟩ := applyToken_nodup happ hf hb
        exact ih rest (by omega) r2 r' h hf2 hb2

/-- Claim C10 (confirmed): for every record produced by `parseRFC`, the
`Forwards` and `Backwards` maps hold at most one relation kind per
referenced identifier (their key lists have no duplicates), because Go map
assignment replaces the previous binding: the kind written by the
last-processed occurrence wins.  The second conjunct is the
replace-not-accumulate law of the map insertion the parser uses, and the
third exhibits it on a parsed line whose two annotation tokens reference
the same identifier: only the later kind (`Updates`, kind 1) survives. -/
theorem relation_maps_last_write_wins :
    (∀ (line : Str) (r : RFC), parseRFC line = .ok (some r) →
      (r.Forwards.map Prod.fst).Nodup ∧ (r.Backwards.map Prod.fst).Nodup) ∧
    (∀ (m : List (Str × Nat)) (k : Str) (t : Nat),
      mapLookup (mapInsert m k t) k = some t ∧
      (∀ k', k' ≠ k → mapLookup (mapInsert m k t) k' = mapLookup m k')) ∧
    (∃ r, parseRFC "1 T. May 1990. (Obsoletes RFC5) (Updates RFC5)".data
        = .ok (some r) ∧ r.Backwards = [("5".data, Updated)]) := by
  refine ⟨?_, ?_, ?_⟩
  · intro line r h
    unfold parseRFC at h
    cases hm : matchRFC line with
    | none => rw [hm] at h; exact absurd h (by simp)
    | some tr =>
      obtain ⟨num, free, annot⟩ := tr
      rw [hm] at h
      dsimp only at h
      by_cases hnil : (splitSep free).2 = []
      · rw [if_pos hnil] at h
        exact absurd h (by simp)
      · rw [if_neg hnil] at h
        cases hp : parseParams
            { Number := num, Title := (splitSep free).1,
              Authors := joinSep (splitSep free).2.dropLast,
              Date := (splitSep free).2.getLastD (splitSep free).1,
              Typ := Current, Status := Unknown,
              Forwards := [], Backwards := [], Params := [] } annot with
        | error e => rw [hp] at h; exact absurd h (by simp [Except.map])
        | ok r2 =>
          rw [hp] at h
          simp only [Except.map, Except.ok.injEq, Option.some.injEq] at h
          rw [← h]
          exact parseParams_nodup annot.length annot (Nat.le_refl _) _ r2 hp
            (by simp) (by simp)
  · intro m k t
    exact ⟨mapLookup_mapInsert_self m k t,
      fun k' hk => mapLookup_mapInsert_ne m k k' t hk⟩
  · refine ⟨_, rfl, ?_⟩
    decide

/-- Witness for C10 at the same concrete line: the parsed record's maps
have unique keys. -/
theorem relation_maps_last_write_wins_witness :
    ∃ r, parseRFC "1 T. May 1990. (Obsoletes RFC5) (Updates RFC5)".data
        = .ok (some r) ∧
      (r.Forwards.map Prod.fst).Nodup ∧ (r.Backwards.map Prod.fst).Nodup := by
  refine ⟨_, rfl, ?_⟩
  exact relation_maps_last_write_wins.1
    "1 T. May 1990. (Obsoletes RFC5) (Updates RFC5)".data _ rfl

/-! ### Claim C7: first-match-wins token classification -/

theorem matchForward_word : ∀ {tok w refs : Str}, matchForward tok = some (w, refs) →
    w = "Obsoleted".data ∨ w = "Updated".data := by
  intro tok
  induction tok with
  | nil => intro w refs h; simp [matchForward] at h
  | cons c rest ih =>
    intro w refs h
    unfold matchForward at h
    by_cases h1 : ("Obsoleted by ".data).isPrefixOf (c :: rest)
    · rw [if_pos h1] at h
      cases h
      exact Or.inl rfl
    · rw [if_neg h1] at h
      by_cases h2 : ("Updated by ".data).isPrefixOf (c :: rest)
      · rw [if_pos h2] at h
        cases h
        exact Or.inr rfl
      · rw [if_neg h2] at h
        exact ih h

theorem matchBackward_word : ∀ {tok w refs : Str}, matchBackward tok = some (w, refs) →
    w = "Obsoletes".data ∨ w = "Updates".data := by
  intro tok
  induction tok with
  | nil => intro w refs h; simp [matchBackward] at h
  | cons c rest ih =>
    intro w refs h
    unfold matchBackward at h
    by_cases h1 : ("Obsoletes ".data).isPrefixOf (c :: rest)
    · rw [if_pos h1] at h
      cases h
      exact Or.inl rfl
    · rw [if_neg h1] at h
      by_cases h2 : ("Updates ".data).isPrefixOf (c :: rest)
      · rw [if_pos h2] at h
        cases h
        exact Or.inr rfl
      · rw [if_neg h2] at h
        exact ih h

/-- Claim C7 (confirmed): each parenthesized annotation token is
classified by first-match-wins ordered rules.  A token matching the
forward pattern `(Obsoleted|Updated) by <refs>` yields forward relations
(one entry per extracted reference, kind `MakeType` of the matched word) —
even when the later rules would also match; otherwise one matching the
backward pattern `(Obsoletes|Updates) <refs>` yields backward relations;
otherwise one matching `Status: <value>` sets the lifecycle status from
the fixed table, an unrecognized value being fatal (`.error`); any other
token is appended verbatim to the extra annotations. -/
theorem token_classification (r : RFC) (tok : Str) :
    (∀ w refs, matchForward tok = some (w, refs) →
      ∃ t, MakeType w = some t ∧
        applyToken r tok
          = .ok { r with
              Forwards := (parseRefs refs).foldl
                (fun m ref => mapInsert m ref t) r.Forwards }) ∧
    (matchForward tok = none → ∀ w refs, matchBackward tok = some (w, refs) →
      ∃ t, MakeType w = some t ∧
        applyToken r tok
          = .ok { r with
              Backwards := (parseRefs refs).foldl
                (fun m ref => mapInsert m ref t) r.Backwards }) ∧
    (matchForward tok = none → matchBackward tok = none →
      ∀ v, matchStatus tok = some v →
        (∀ st, GetStatus v = some st →
          applyToken r tok = .ok { r with Status := st }) ∧
        (GetStatus v = none → ∃ e, applyToken r tok = .error e)) ∧
    (matchForward tok = none → matchBackward tok = none → matchStatus tok = none →
      applyToken r tok = .ok { r with Params := r.Params ++ [tok] }) := by
  refine ⟨?_, ?_, ?_, ?_⟩
  · intro w refs hm
    have hw : ∃ t, MakeType w = some t := by
      rcases matchForward_word hm with rfl | rfl
      · exact ⟨Obsoleted, rfl⟩
      · exact ⟨Updated, rfl⟩
    obtain ⟨t, ht⟩ := hw
    refine ⟨t, ht, ?_⟩
    unfold applyToken
    rw [hm]
    dsimp only
    rw [show (parseRefs refs).foldlM
        (fun m ref => (MakeType w).map (fun t => mapInsert m ref t)) r.Forwards
        = some ((parseRefs refs).foldl (fun m ref => mapInsert m ref t) r.Forwards) by
      simp only [ht, Option.map_some']
      exact foldlM_some_insert (parseRefs refs) t r.Forwards]
  · intro hf w refs hm
    have hw : ∃ t, MakeType w = some t := by
      rcases matchBackward_word hm with rfl | rfl
      · exact ⟨Obsoleted, rfl⟩
      · exact ⟨Updated, rfl⟩
    obtain ⟨t, ht⟩ := hw
    refine ⟨t, ht, ?_⟩
    unfold applyToken
    rw [hf, hm]
    dsimp only
    rw [show (parseRefs refs).foldlM
        (fun m ref => (MakeType w).map (fun t => mapInsert m ref t)) r.Backwards
        = some ((parseRefs refs).foldl (fun m ref => mapInsert m ref t) r.Backwards) by
      simp only [ht, Option.map_some']
      exact foldlM_some_insert (parseRefs refs) t r.Backwards]
  · intro hf hb v hm
    constructor
    · intro st hst
      unfold applyToken
      rw [hf, hb, hm]
      dsimp only
      rw [hst]
    · intro hst
      unfold applyToken
      rw [hf, hb, hm]
      dsimp only
      rw [hst]
      exact ⟨_, rfl⟩
  · intro hf hb hs
    unfold applyToken
    rw [hf, hb, hs]

/-- Witness for C7: the token `Updates RFC1 Obsoleted by RFC2` matches
both the forward and the backward pattern, and the forward rule wins. -/
theorem token_classification_witness :
    ∃ t, MakeType "Obsoleted".data = some t ∧
      applyToken cexR50 "Updates RFC1 Obsoleted by RFC2".data
        = .ok { cexR50 with
            Forwards := (parseRefs "RFC2".data).foldl
              (fun m ref => mapInsert m ref t) cexR50.Forwards } :=
  (token_classification cexR50 "Updates RFC1 Obsoleted by RFC2".data).1
    "Obsoleted".data "RFC2".data rfl

/-! ### Claim C6: the shape recognized by `parseRFC` -/

/-- The string contains the separator `". "`. -/
def HasSep (l : Str) : Prop := ∃ u v, l = u ++ '.' :: ' ' :: v

theorem HasSep_cons_iff (c : Char) (l : Str) :
    HasSep (c :: l) ↔ ((c = '.' ∧ l.head? = some ' ') ∨ HasSep l) := by
  constructor
  · rintro ⟨u, v, heq⟩
    cases u with
    | nil =>
      simp only [List.nil_append, List.cons.injEq] at heq
      obtain ⟨h1, h2⟩ := heq
      subst h2
      exact Or.inl ⟨h1, rfl⟩
    | cons u0 us =>
      simp only [List.cons_append, List.cons.injEq] at heq
      exact Or.inr ⟨us, v, heq.2⟩
  · rintro (⟨h1, h2⟩ | ⟨u, v, heq⟩)
    · subst h1
      cases l with
      | nil => simp at h2
      | cons l0 t =>
        simp only [List.head?_cons, Option.some.injEq] at h2
        subst h2
        exact ⟨[], t, rfl⟩
    · subst heq
      exact ⟨c :: u, v, rfl⟩

theorem splitLast_none_iff : ∀ l : Str, splitLast l = none ↔ ¬ HasSep l := by
  intro l
  induction l with
  | nil =>
    simp only [splitLast, true_iff]
    rintro ⟨u, v, heq⟩
    exact absurd heq.symm (by simp)
  | cons c rest ih =>
    rw [HasSep_cons_iff]
    unfold splitLast
    cases hr : splitLast rest with
    | some pr =>
      obtain ⟨a, b⟩ := pr
      dsimp only
      have hsep : HasSep rest := by
        by_contra hcon
        rw [← ih] at hcon
        rw [hr] at hcon
        exact absurd hcon (by simp)
      constructor
      · intro hfalse
        exact absurd hfalse (by simp)
      · intro hcon
        exact absurd (Or.inr hsep) hcon
    | none =>
      have hnr : ¬ HasSep rest := ih.mp hr
      by_cases hc : c = '.' ∧ rest.head? = some ' '
      · simp only [if_pos hc, reduceCtorEq, false_iff, not_or]
        intro hcon
        exact hcon.1 hc
      · simp only [if_neg hc, true_iff]
        rintro (h | h)
        · exact hc h
        · exact hnr h

theorem splitLast_sound : ∀ (l a b : Str), splitLast l = some (a, b) →
    l = a ++ '.' :: ' ' :: b ∧ splitLast b = none := by
  intro l
  induction l with
  | nil => intro a b h; simp [splitLast] at h
  | cons c rest ih =>
    intro a b h
    unfold splitLast at h
    cases hr : splitLast rest with
    | some pr =>
      obtain ⟨a', b'⟩ := pr
      rw [hr] at h
      simp only [Option.some.injEq, Prod.mk.injEq] at h
      obtain ⟨ha, hb⟩ := h
      obtain ⟨hrest, hbn⟩ := ih a' b' hr
      subst hb
      rw [← ha, hrest]
      exact ⟨rfl, hbn⟩
    | none =>
      rw [hr] at h
      by_cases hc : c = '.' ∧ rest.head? = some ' '
      · rw [if_pos hc] at h
        simp only [Option.some.injEq, Prod.mk.injEq] at h
        obtain ⟨ha, hb⟩ := h
        obtain ⟨hc1, hc2⟩ := hc
        subst hc1
        cases rest with
        | nil => simp at hc2
        | cons r0 t =>
          simp only [List.head?_cons, Option.some.injEq] at hc2
          subst hc2
          simp only [List.tail_cons] at hb
          subst ha
          subst hb
          refine ⟨rfl, ?_⟩
          unfold splitLast at hr
          cases hb2 : splitLast t with
          | some pr2 =>
            obtain ⟨x, y⟩ := pr2
            rw [hb2] at hr
            dsimp only at hr
            exact absurd hr (by simp)
          | none => rfl
      · rw [if_neg hc] at h
        exact absurd h (by simp)

theorem splitLast_complete : ∀ (a b : Str), splitLast b = none →
    splitLast (a ++ '.' :: ' ' :: b) = some (a, b) := by
  intro a
  induction a with
  | nil =>
    intro b hb
    show splitLast ('.' :: ' ' :: b) = some ([], b)
    unfold splitLast
    have hsb : splitLast (' ' :: b) = none := by
      unfold splitLast
      rw [hb]
      simp
    rw [hsb]
    simp
  | cons a0 as ih =>
    intro b hb
    show splitLast (a0 :: (as ++ '.' :: ' ' :: b)) = some (a0 :: as, b)
    unfold splitLast
    rw [ih b hb]

/-- A helper for the maximal-digit-prefix argument. -/
theorem takeWhile_drop_append {p : Char → Bool} :
    ∀ (d : Str) (x : Char) (X : Str), (∀ c ∈ d, p c = true) → p x = false →
      (d ++ x :: X).takeWhile p = d ∧ (d ++ x :: X).dropWhile p = x :: X := by
  intro d
  induction d with
  | nil =>
    intro x X _ hx
    simp [List.takeWhile_cons, List.dropWhile_cons, hx]
  | cons c cs ih =>
    intro x X hd hx
    have hc : p c = true := hd c (List.mem_cons_self _ _)
    have := ih x X (fun c' hc' => hd c' (List.mem_cons_of_mem _ hc')) hx
    simp only [List.cons_append, List.takeWhile_cons, List.dropWhile_cons, hc]
    simp only [if_true]
    exact ⟨by rw [this.1], by rw [this.2]⟩

/-- The declarative shape of an index line accepted by `reRFC`:
`<digits> <free text>. <annotation>`, with a nonempty all-digit
identifier, nonempty free text, and the split placed at the last `". "`
(the annotation holds no further `". "`). -/
def LineShape (line d f a : Str) : Prop :=
  line = d ++ ' ' :: (f ++ '.' :: ' ' :: a) ∧ d ≠ [] ∧
    (∀ c ∈ d, c.isDigit = true) ∧ f ≠ [] ∧ ¬ HasSep a

theorem matchRFC_some_iff (line d f a : Str) :
    matchRFC line = some (d, f, a) ↔ LineShape line d f a := by
  constructor
  · intro h
    unfold matchRFC at h
    by_cases hd : line.takeWhile Char.isDigit = []
    · rw [if_pos hd] at h
      exact absurd h (by simp)
    · rw [if_neg hd] at h
      by_cases hh : (line.dropWhile Char.isDigit).head? = some ' '
      · rw [if_pos hh] at h
        cases hsl : splitLast (line.dropWhile Char.isDigit).tail with
        | none => rw [hsl] at h; exact absurd h (by simp)
        | some pr =>
          obtain ⟨f', a'⟩ := pr
          rw [hsl] at h
          dsimp only at h
          by_cases hf : f' = []
          · rw [if_pos hf] at h
            exact absurd h (by simp)
          · rw [if_neg hf] at h
            simp only [Option.some.injEq, Prod.mk.injEq] at h
            obtain ⟨h1, h2, h3⟩ := h
            subst h1; subst h2; subst h3
            obtain ⟨hsplit, hnone⟩ := splitLast_sound _ _ _ hsl
            have hna := (splitLast_none_iff _).mp hnone
            cases hdw : line.dropWhile Char.isDigit with
            | nil => rw [hdw] at hh; simp at hh
            | cons r0 t =>
              rw [hdw] at hh
              simp only [List.head?_cons, Option.some.injEq] at hh
              subst hh
              rw [hdw] at hsplit
              simp only [List.tail_cons] at hsplit
              refine ⟨?_, hd, ?_, hf, hna⟩
              · conv_lhs => rw [← List.takeWhile_append_dropWhile
                  (p := Char.isDigit) (l := line)]
                rw [hdw, hsplit]
              · intro c hc
                exact List.mem_takeWhile_imp hc
      · rw [if_neg hh] at h
        exact absurd h (by simp)
  · rintro ⟨hline, hd, hdig, hf, hna⟩
    have hsp : (' '.isDigit) = false := rfl
    cases d with
    | nil => exact absurd rfl hd
    | cons d0 ds =>
      have htw := takeWhile_drop_append (p := Char.isDigit) (d0 :: ds) ' '
        (f ++ '.' :: ' ' :: a) hdig hsp
      rw [← hline] at htw
      unfold matchRFC
      rw [if_neg (htw.1.symm ▸ hd), htw.2]
      simp only [List.head?_cons, List.tail_cons]
      rw [if_pos trivial]
      rw [splitLast_complete f a ((splitLast_none_iff a).mpr hna)]
      dsimp only
      rw [if_neg hf, htw.1]

theorem applyToken_preserves {r r' : RFC} {tok : Str}
    (h : applyToken r tok = .ok r') :
    r'.Number = r.Number ∧ r'.Title = r.Title ∧ r'.Authors = r.Authors ∧
      r'.Date = r.Date := by
  unfold applyToken at h
  cases hmf : matchForward tok with
  | some pr =>
    obtain ⟨w, refs⟩ := pr
    rw [hmf] at h
    dsimp only at h
    cases hfold : (parseRefs refs).foldlM
        (fun m ref => (MakeType w).map (fun t => mapInsert m ref t)) r.Forwards with
    | none => rw [hfold] at h; exact absurd h (by simp)
    | some f =>
      rw [hfold] at h
      simp only [Except.ok.injEq] at h
      rw [← h]
      exact ⟨rfl, rfl, rfl, rfl⟩
  | none =>
    rw [hmf] at h
    dsimp only at h
    cases hmb : matchBackward tok with
    | some pr =>
      obtain ⟨w, refs⟩ := pr
      rw [hmb] at h
      dsimp only at h
      cases hfold : (parseRefs refs).foldlM
          (fun m ref => (MakeType w).map (fun t => mapInsert m ref t)) r.Backwards with
      | none => rw [hfold] at h; exact absurd h (by simp)
      | some b =>
        rw [hfold] at h
        simp only [Except.ok.injEq] at h
        rw [← h]
        exact ⟨rfl, rfl, rfl, rfl⟩
    | none =>
      rw [hmb] at h
      dsimp only at h
      cases hms : matchStatus tok with
      | some v =>
        rw [hms] at h
        dsimp only at h
        cases hgs : GetStatus v with
        | none => rw [hgs] at h; exact absurd h (by simp)
        | some st =>
          rw [hgs] at h
          simp only [Except.ok.injEq] at h
          rw [← h]
          exact ⟨rfl, rfl, rfl, rfl⟩
      | none =>
        rw [hms] at h
        simp only [Except.ok.injEq] at h
        rw [← h]
        exact ⟨rfl, rfl, rfl, rfl⟩

theorem parseParams_preserves :
    ∀ (n : Nat) (params : Str), params.length ≤ n → ∀ (r r' : RFC),
      parseParams r params = .ok r' →
      r'.Number = r.Number ∧ r'.Title = r.Title ∧ r'.Authors = r.Authors ∧
        r'.Date = r.Date := by
  intro n
  induction n with
  | zero =>
    intro params hlen r r' h
    have hp : params = [] := List.eq_nil_of_length_eq_zero (Nat.le_zero.mp hlen)
    subst hp
    rw [parseParams_eq] at h
    simp only [show matchParams [] = none from rfl] at h
    cases h
    exact ⟨rfl, rfl, rfl, rfl⟩
  | succ n ih =>
    intro params hlen r r' h
    rw [parseParams_eq] at h
    cases hm : matchParams params with
    | none =>
      rw [hm] at h
      cases h
      exact ⟨rfl, rfl, rfl, rfl⟩
    | some pr =>
      obtain ⟨tok, rest⟩ := pr
      rw [hm] at h
      dsimp only at h
      have hlen2 := matchParams_length hm
      cases happ : applyToken r tok with
      | error e => rw [happ] at h; exact absurd h (by simp)
      | ok r2 =>
        rw [happ] at h
        dsimp only at h
        obtain ⟨h1, h2, h3, h4⟩ := applyToken_preserves happ
        obtain ⟨g1, g2, g3, g4⟩ := ih rest (by omega) r2 r' h
        exact ⟨g1.trans h1, g2.trans h2, g3.trans h3, g4.trans h4⟩

theorem splitSep_fst_head :
    ∀ f : Str, (splitSep f).1 ≠ [] → (splitSep f).1.head? = f.head? := by
  intro f h
  cases f with
  | nil => exact absurd rfl h
  | cons c rest =>
    rw [splitSep_cons] at h ⊢
    by_cases hc : c = '.' ∧ rest.head? = some ' '
    · rw [if_pos hc] at h
      exact absurd rfl h
    · rw [if_neg hc]
      rfl

theorem splitSep_spec :
    ∀ (n : Nat) (f : Str), f.length ≤ n →
      joinSep ((splitSep f).1 :: (splitSep f).2) = f ∧
      (∀ pseg ∈ (splitSep f).1 :: (splitSep f).2, ¬ HasSep pseg) := by
  intro n
  induction n with
  | zero =>
    intro f hlen
    have hf : f = [] := List.eq_nil_of_length_eq_zero (Nat.le_zero.mp hlen)
    subst hf
    constructor
    · rfl
    · intro pseg hmem
      rcases List.mem_cons.mp hmem with rfl | hmem2
      · rintro ⟨u, v, heq⟩
        have hnil : (splitSep ([] : Str)).1 = [] := rfl
        rw [hnil] at heq
        exact absurd heq.symm (by simp)
      · exact absurd hmem2 (by simp [splitSep, splitSepGo])
  | succ n ih =>
    intro f hlen
    cases f with
    | nil => exact ih [] (by simp)
    | cons c rest =>
      rw [splitSep_cons]
      simp only [List.length_cons] at hlen
      by_cases hc : c = '.' ∧ rest.head? = some ' '
      · rw [if_pos hc]
        obtain ⟨hc1, hc2⟩ := hc
        subst hc1
        cases rest with
        | nil => simp at hc2
        | cons r0 t =>
          simp only [List.head?_cons, Option.some.injEq] at hc2
          subst hc2
          simp only [List.tail_cons]
          simp only [List.length_cons] at hlen
          have hrec := ih t (by omega)
          constructor
          · show '.' :: ' ' :: joinSep ((splitSep t).1 :: (splitSep t).2)
              = '.' :: ' ' :: t
            rw [hrec.1]
          · intro pseg hmem
            rcases List.mem_cons.mp hmem with rfl | hmem2
            · rintro ⟨u, v, heq⟩
              exact absurd heq.symm (by simp)
            · exact hrec.2 pseg hmem2
      · rw [if_neg hc]
        have hrec := ih rest (by omega)
        constructor
        · show joinSep ((c :: (splitSep rest).1) :: (splitSep rest).2) = c :: rest
          cases hsr : (splitSep rest).2 with
          | nil =>
            show c :: (splitSep rest).1 = c :: rest
            have := hrec.1
            rw [hsr] at this
            exact congrArg (c :: ·) this
          | cons s0 ss =>
            show c :: (splitSep rest).1 ++ '.' :: ' ' :: joinSep (s0 :: ss) = c :: rest
            have := hrec.1
            rw [hsr] at this
            show c :: ((splitSep rest).1 ++ '.' :: ' ' :: joinSep (s0 :: ss)) = c :: rest
            exact congrArg (c :: ·) this
        · intro pseg hmem
          rcases List.mem_cons.mp hmem with rfl | hmem2
          · intro hsep
            rw [HasSep_cons_iff] at hsep
            rcases hsep with ⟨h1, h2⟩ | hsep2
            · have hne : (splitSep rest).1 ≠ [] := by
                intro he
                rw [he] at h2
                simp at h2
              rw [splitSep_fst_head rest hne] at h2
              exact hc ⟨h1, h2⟩
            · exact hrec.2 (splitSep rest).1 (List.mem_cons_self _ _) hsep2
          · exact hrec.2 pseg (List.mem_cons_of_mem _ hmem2)

/-- Counterexample to claim C6 as stated: the line `5 X. (Status:
HISTORIC)` has the `<digits> <free text>. <annotation>` structure
recognized by `reRFC`, yet no record is returned: its free text `X`
splits into a single `". "`-segment, and the program panics at the
out-of-bounds slice `parts[1:0]` before any record exists. -/
theorem parseRFC_shape_cex :
    LineShape "5 X. (Status: HISTORIC)".data
      "5".data "X".data "(Status: HISTORIC)".data ∧
    parseRFC "5 X. (Status: HISTORIC)".data
      = .error "slice bounds out of range [1:0]".data :=
  ⟨(matchRFC_some_iff _ _ _ _).mp (by decide), rfl⟩

/-- Claim C6, amended: `parseRFC` returns no record (`nil`) exactly when
the line does not have the `<digits> <free text>. <annotation>` structure
recognized by `reRFC`.  On a matching line whose free text splits into a
single `". "`-segment, the program panics (slice bounds out of range) and
produces nothing.  Whenever a record is returned, its `Title` is the
first `". "`-separated segment of the free text, `Authors` is the middle
segments rejoined with `". "`, and `Date` is the last segment.  The final
conjunct certifies that the segment list produced by the embedded
`strings.Split` really is the `". "`-decomposition of the free text:
joined back with `". "` it gives the free text and no segment holds a
further `". "`. -/
theorem parseRFC_shape (line : Str) :
    (parseRFC line = .ok none ↔ ¬ ∃ d f a, LineShape line d f a) ∧
    (∀ d f a, LineShape line d f a → (splitSep f).2 = [] →
      parseRFC line = .error "slice bounds out of range [1:0]".data) ∧
    (∀ r, parseRFC line = .ok (some r) →
      ∃ d f a, LineShape line d f a ∧ r.Number = d ∧
        r.Title = (splitSep f).1 ∧
        r.Authors = joinSep (splitSep f).2.dropLast ∧
        r.Date = (splitSep f).2.getLastD (splitSep f).1) ∧
    (∀ f : Str, joinSep ((splitSep f).1 :: (splitSep f).2) = f ∧
      (∀ pseg ∈ (splitSep f).1 :: (splitSep f).2, ¬ HasSep pseg)) := by
  refine ⟨?_, ?_, ?_, fun f => splitSep_spec f.length f (Nat.le_refl _)⟩
  · constructor
    · intro h hex
      obtain ⟨d, f, a, hshape⟩ := hex
      have hm := (matchRFC_some_iff line d f a).mpr hshape
      unfold parseRFC at h
      rw [hm] at h
      dsimp only at h
      by_cases hnil : (splitSep f).2 = []
      · rw [if_pos hnil] at h
        exact absurd h (by simp)
      · rw [if_neg hnil] at h
        cases hp : parseParams
            { Number := d, Title := (splitSep f).1,
              Authors := joinSep (splitSep f).2.dropLast,
              Date := (splitSep f).2.getLastD (splitSep f).1,
              Typ := Current, Status := Unknown,
              Forwards := [], Backwards := [], Params := [] } a with
        | ok r2 => rw [hp] at h; simp [Except.map] at h
        | error e => rw [hp] at h; simp [Except.map] at h
    · intro h
      unfold parseRFC
      cases hm : matchRFC line with
      | none => rfl
      | some tr =>
        obtain ⟨d, f, a⟩ := tr
        exact absurd ⟨d, f, a, (matchRFC_some_iff line d f a).mp hm⟩ h
  · intro d f a hshape hnil
    have hm := (matchRFC_some_iff line d f a).mpr hshape
    unfold parseRFC
    rw [hm]
    dsimp only
    rw [if_pos hnil]
  · intro r h
    unfold parseRFC at h
    cases hm : matchRFC line with
    | none => rw [hm] at h; exact absurd h (by simp)
    | some tr =>
      obtain ⟨d, f, a⟩ := tr
      rw [hm] at h
      dsimp only at h
      by_cases hnil : (splitSep f).2 = []
      · rw [if_pos hnil] at h
        exact absurd h (by simp)
      · rw [if_neg hnil] at h
        refine ⟨d, f, a, (matchRFC_some_iff line d f a).mp hm, ?_⟩
        cases hp : parseParams
            { Number := d, Title := (splitSep f).1,
              Authors := joinSep (splitSep f).2.dropLast,
              Date := (splitSep f).2.getLastD (splitSep f).1,
              Typ := Current, Status := Unknown,
              Forwards := [], Backwards := [], Params := [] } a with
        | error e => rw [hp] at h; exact absurd h (by simp [Except.map])
        | ok r2 =>
          rw [hp] at h
          simp only [Except.map, Except.ok.injEq, Option.some.injEq] at h
          subst h
          obtain ⟨h1, h2, h3, h4⟩ := parseParams_preserves a.length a (Nat.le_refl _) _ r2 hp
          exact ⟨h1, h2, h3, h4⟩

/-- The index line used by the C6 witness. -/
def demoLine : Str := "7 X. Y. May 1990. (Status: HISTORIC)".data

/-- The record parsed from `demoLine`. -/
def demoR : RFC :=
  match parseRFC demoLine with
  | .ok (some r) => r
  | _ => cexR50

/-- Witness for C6 at the concrete line `demoLine`. -/
theorem parseRFC_shape_witness :
    ∃ d f a, LineShape demoLine d f a ∧ demoR.Number = d ∧
      demoR.Title = (splitSep f).1 ∧
      demoR.Authors = joinSep (splitSep f).2.dropLast ∧
      demoR.Date = (splitSep f).2.getLastD (splitSep f).1 :=
  (parseRFC_shape demoLine).2.2.1 demoR rfl

/-! ### Reachability through the relation mention graph -/

/-- The identifiers a record mentions: the keys of its forward relations
followed by the keys of its backward relations — exactly the neighbour
list `count` and `collectEdges` traverse. -/
def refsOf (r : RFC) : List Str := r.Forwards.map Prod.fst ++ r.Backwards.map Prod.fst

/-- Reachability from `x` through mention edges, avoiding the excluded
set `P`: every node on the path (including both ends) is outside `P` and
present in the store. -/
inductive ReachA (s : Store) (P : List Str) : Str → Str → Prop where
  | refl (x : Str) : x ∉ P → (GetRFC s x).isSome → ReachA s P x x
  | step (x y z : Str) (r : RFC) : ReachA s P x y → GetRFC s y = some r →
      z ∈ refsOf r → z ∉ P → (GetRFC s z).isSome → ReachA s P x z

theorem ReachA_src {s : Store} {P : List Str} {x y : Str} (h : ReachA s P x y) :
    x ∉ P ∧ (GetRFC s x).isSome := by
  induction h with
  | refl h1 h2 => exact ⟨h1, h2⟩
  | step y z r _ _ _ _ _ ih => exact ih

theorem ReachA_dst {s : Store} {P : List Str} {x y : Str} (h : ReachA s P x y) :
    y ∉ P ∧ (GetRFC s y).isSome := by
  cases h with
  | refl h1 h2 => exact ⟨h1, h2⟩
  | step y z r _ _ _ h4 h5 => exact ⟨h4, h5⟩

theorem ReachA_trans {s : Store} {P : List Str} {x y z : Str}
    (h1 : ReachA s P x y) (h2 : ReachA s P y z) : ReachA s P x z := by
  induction h2 with
  | refl hw1 hw2 => exact h1
  | step b c r hab hb hc hc2 hc3 ih => exact ReachA.step x b c r ih hb hc hc2 hc3

/-- Well-formedness: every mentioned identifier resolves in the store. -/
def refsClosed (s : Store) : Prop :=
  ∀ x r, GetRFC s x = some r → ∀ y ∈ refsOf r, y ∈ s.map Prod.fst

/-- Well-formedness of the real index: relations are declared by both
endpoints, so the mention graph is symmetric. -/
def symStore (s : Store) : Prop :=
  ∀ x r, GetRFC s x = some r → ∀ y ∈ refsOf r,
    ∃ r', GetRFC s y = some r' ∧ x ∈ refsOf r'

theorem symStore_refsClosed {s : Store} (h : symStore s) : refsClosed s := by
  intro x r hx y hy
  obtain ⟨r', hr', -⟩ := h x r hx y hy
  rw [← mapLookup_isSome_iff]
  unfold GetRFC at hr'
  rw [hr']
  rfl

theorem ReachA_symm {s : Store} {P : List Str} (hsym : symStore s) {x y : Str}
    (h : ReachA s P x y) : ReachA s P y x := by
  induction h with
  | refl h1 h2 => exact ReachA.refl _ h1 h2
  | step b c r hab hb hc hc2 hc3 ih =>
    obtain ⟨r', hr', hback⟩ := hsym b r hb c hc
    have hbn := ReachA_dst hab
    exact ReachA_trans (ReachA.step c c b r' (ReachA.refl c hc2 hc3) hr' hback hbn.1 hbn.2) ih

theorem ReachA_class {s : Store} {P : List Str} (hsym : symStore s) {x y : Str}
    (h : ReachA s P x y) : ∀ w, (ReachA s P x w ↔ ReachA s P y w) := by
  intro w
  constructor
  · intro hw
    exact ReachA_trans (ReachA_symm hsym h) hw
  · intro hw
    exact ReachA_trans h hw

/-! ### The Go string order -/

theorem ltStr_irrefl : ∀ a : Str, ltStr a a = false := by
  intro a
  induction a with
  | nil => rfl
  | cons c cs ih =>
    unfold ltStr
    rw [if_neg (lt_irrefl c), if_neg (lt_irrefl c)]
    exact ih

theorem ltStr_trans : ∀ a b c : Str, ltStr a b = true → ltStr b c = true →
    ltStr a c = true := by
  intro a
  induction a with
  | nil =>
    intro b c hab hbc
    cases c with
    | nil =>
      cases b with
      | nil => exact absurd hab (by simp [ltStr])
      | cons b0 bs => exact absurd hbc (by simp [ltStr])
    | cons c0 cs => rfl
  | cons a0 as ih =>
    intro b c hab hbc
    cases b with
    | nil => exact absurd hab (by simp [ltStr])
    | cons b0 bs =>
      cases c with
      | nil => exact absurd hbc (by simp [ltStr])
      | cons c0 cs =>
        unfold ltStr at hab hbc ⊢
        by_cases h1 : a0 < b0
        · by_cases h2 : b0 < c0
          · rw [if_pos (lt_trans h1 h2)]
          · rw [if_neg h2] at hbc
            by_cases h3 : c0 < b0
            · rw [if_pos h3] at hbc
              exact absurd hbc (by simp)
            · have hbc0 : b0 = c0 := le_antisymm (le_of_not_lt h3) (le_of_not_lt h2)
              rw [if_pos (hbc0 ▸ h1)]
        · rw [if_neg h1] at hab
          by_cases h4 : b0 < a0
          · rw [if_pos h4] at hab
            exact absurd hab (by simp)
          · have hab0 : a0 = b0 := le_antisymm (le_of_not_lt h4) (le_of_not_lt h1)
            rw [if_neg h4] at hab
            by_cases h2 : b0 < c0
            · rw [if_pos (hab0 ▸ h2)]
            · rw [if_neg h2] at hbc
              by_cases h3 : c0 < b0
              · rw [if_pos h3] at hbc
                exact absurd hbc (by simp)
              · rw [if_neg h3] at hbc
                rw [if_neg (hab0 ▸ h2), if_neg (hab0 ▸ h3)]
                exact ih bs cs hab hbc

theorem ltStr_conn : ∀ a b : Str, ltStr a b = false → ltStr b a = false → a = b := by
  intro a
  induction a with
  | nil =>
    intro b hab _
    cases b with
    | nil => rfl
    | cons b0 bs => exact absurd hab (by simp [ltStr])
  | cons a0 as ih =>
    intro b hab hba
    cases b with
    | nil => exact absurd hba (by simp [ltStr])
    | cons b0 bs =>
      unfold ltStr at hab hba
      by_cases h1 : a0 < b0
      · rw [if_pos h1] at hab
        exact absurd hab (by simp)
      · by_cases h2 : b0 < a0
        · rw [if_pos h2] at hba
          exact absurd hba (by simp)
        · have h0 : a0 = b0 := le_antisymm (le_of_not_lt h2) (le_of_not_lt h1)
          rw [if_neg h1, if_neg h2] at hab
          rw [if_neg h2, if_neg h1] at hba
          rw [h0, ih bs hab hba]

theorem ltStr_asymm {a b : Str} (h : ltStr a b = true) : ltStr b a = false := by
  by_contra hcon
  have hba : ltStr b a = true := by
    cases hx : ltStr b a
    · exact absurd hx hcon
    · rfl
  have := ltStr_trans a b a h hba
  rw [ltStr_irrefl] at this
  exact absurd this (by simp)

/-! ### What `count` visits -/

theorem countList_spec (s : Store) (P : List Str) (fuel : Nat)
    (IH : ∀ (g : List Str) (id : Str) (c : Nat) (g' : List Str),
      count s P fuel g id = some (c, g') →
      ∃ new, g' = new ++ g ∧ c = new.length ∧ new.Nodup ∧
        (id ∉ P → id ∉ g → id ∈ new) ∧
        (∀ x ∈ new, x ∉ P ∧ x ∉ g ∧ ReachA s P id x) ∧
        (∀ x ∈ new, ∀ r, GetRFC s x = some r → ∀ z ∈ refsOf r, z ∉ P → z ∈ g')) :
    ∀ (ns : List Str) (g : List Str) (c0 c : Nat) (g' : List Str),
      countList (count s P fuel) g ns c0 = some (c, g') →
      ∃ new, g' = new ++ g ∧ c = c0 + new.length ∧ new.Nodup ∧
        (∀ x ∈ new, x ∉ P ∧ x ∉ g ∧ ∃ n ∈ ns, ReachA s P n x) ∧
        (∀ x ∈ new, ∀ r, GetRFC s x = some r → ∀ z ∈ refsOf r, z ∉ P → z ∈ g') ∧
        (∀ n ∈ ns, n ∉ P → n ∈ g') := by
  intro ns
  induction ns with
  | nil =>
    intro g c0 c g' h
    unfold countList at h
    simp only [Option.some.injEq, Prod.mk.injEq] at h
    obtain ⟨hc, hg⟩ := h
    refine ⟨[], by rw [← hg]; rfl, by simp only [List.length_nil]; omega,
      List.nodup_nil, ?_, ?_, ?_⟩
    · intro x hx; exact absurd hx (List.not_mem_nil x)
    · intro x hx; exact absurd hx (List.not_mem_nil x)
    · intro n hn; exact absurd hn (List.not_mem_nil n)
  | cons n ns ih =>
    intro g c0 c g' h
    unfold countList at h
    cases hcnt : count s P fuel g n with
    | none => rw [hcnt] at h; exact absurd h (by simp)
    | some pr =>
      obtain ⟨c', g1⟩ := pr
      rw [hcnt] at h
      dsimp only at h
      obtain ⟨new1, hg1, hc1, hnd1, hmem1, hprops1, hclos1⟩ := IH g n c' g1 hcnt
      obtain ⟨new2, hg2, hc2, hnd2, hprops2, hclos2, hns2⟩ := ih g1 (c0 + c') c g' h
      have hsub1 : ∀ x ∈ new1, x ∈ g1 := by
        intro x hx
        rw [hg1]
        exact List.mem_append_left g hx
      have hsubg : ∀ x ∈ g, x ∈ g1 := by
        intro x hx
        rw [hg1]
        exact List.mem_append_right new1 hx
      have hsubg' : ∀ x ∈ g1, x ∈ g' := by
        intro x hx
        rw [hg2]
        exact List.mem_append_right new2 hx
      refine ⟨new2 ++ new1, ?_, ?_, ?_, ?_, ?_, ?_⟩
      · rw [hg2, hg1, List.append_assoc]
      · rw [List.length_append]
        omega
      · refine List.Nodup.append hnd2 hnd1 ?_
        intro x hx2 hx1
        exact ((hprops2 x hx2).2.1 (hsub1 x hx1))
      · intro x hx
        rcases List.mem_append.mp hx with hx2 | hx1
        · obtain ⟨hxP, hxg1, m, hm, hreach⟩ := hprops2 x hx2
          exact ⟨hxP, fun hxg => hxg1 (hsubg x hxg), m, List.mem_cons_of_mem n hm, hreach⟩
        · obtain ⟨hxP, hxg, hreach⟩ := hprops1 x hx1
          exact ⟨hxP, hxg, n, List.mem_cons_self n ns, hreach⟩
      · intro x hx r hr z hz hzP
        rcases List.mem_append.mp hx with hx2 | hx1
        · exact hclos2 x hx2 r hr z hz hzP
        · exact hsubg' z (hclos1 x hx1 r hr z hz hzP)
      · intro m hm hmP
        rcases List.mem_cons.mp hm with rfl | hmns
        · by_cases hmg : m ∈ g
          · exact hsubg' m (hsubg m hmg)
          · exact hsubg' m (hsub1 m (hmem1 hmP hmg))
        · exact hns2 m hmns hmP

theorem count_spec (s : Store) (P : List Str) :
    ∀ (fuel : Nat) (g : List Str) (id : Str) (c : Nat) (g' : List Str),
      count s P fuel g id = some (c, g') →
      ∃ new, g' = new ++ g ∧ c = new.length ∧ new.Nodup ∧
        (id ∉ P → id ∉ g → id ∈ new) ∧
        (∀ x ∈ new, x ∉ P ∧ x ∉ g ∧ ReachA s P id x) ∧
        (∀ x ∈ new, ∀ r, GetRFC s x = some r → ∀ z ∈ refsOf r, z ∉ P → z ∈ g') := by
  intro fuel
  induction fuel with
  | zero => intro g id c g' h; simp [count] at h
  | succ fuel ih =>
    intro g id c g' h
    unfold count at h
    by_cases hP : id ∈ P
    · rw [if_pos hP] at h
      simp only [Option.some.injEq, Prod.mk.injEq] at h
      refine ⟨[], by rw [← h.2]; rfl, by simp only [List.length_nil]; omega,
        List.nodup_nil, ?_, ?_, ?_⟩
      · intro hc; exact absurd hP hc
      · intro x hx; exact absurd hx (List.not_mem_nil x)
      · intro x hx; exact absurd hx (List.not_mem_nil x)
    · rw [if_neg hP] at h
      by_cases hG : id ∈ g
      · rw [if_pos hG] at h
        simp only [Option.some.injEq, Prod.mk.injEq] at h
        refine ⟨[], by rw [← h.2]; rfl, by simp only [List.length_nil]; omega,
          List.nodup_nil, ?_, ?_, ?_⟩
        · intro _ hc; exact absurd hG hc
        · intro x hx; exact absurd hx (List.not_mem_nil x)
        · intro x hx; exact absurd hx (List.not_mem_nil x)
      · rw [if_neg hG] at h
        cases hr : GetRFC s id with
        | none => rw [hr] at h; exact absurd h (by simp)
        | some r =>
          rw [hr] at h
          dsimp only at h
          obtain ⟨new2, hg', hc, hnd2, hprops2, hclos2, hns⟩ :=
            countList_spec s P fuel ih _ _ _ _ _ h
          have hidsome : (GetRFC s id).isSome := by rw [hr]; rfl
          have hreachid : ReachA s P id id := ReachA.refl id hP hidsome
          have hlift : ∀ n, n ∈ refsOf r → ∀ x, ReachA s P n x → ReachA s P id x := by
            intro n hn x hx
            have hsrc := ReachA_src hx
            exact ReachA_trans
              (ReachA.step id id n r hreachid hr hn hsrc.1 hsrc.2) hx
          refine ⟨new2 ++ [id], ?_, ?_, ?_, ?_, ?_, ?_⟩
          · rw [hg', List.append_assoc]
            rfl
          · rw [List.length_append]
            simp only [List.length_singleton]
            omega
          · refine List.Nodup.append hnd2 (List.nodup_singleton id) ?_
            intro x hx2 hxid
            rcases List.mem_singleton.mp hxid with rfl
            exact (hprops2 x hx2).2.1 (List.mem_cons_self x g)
          · intro _ _
            exact List.mem_append_right new2 (List.mem_singleton.mpr rfl)
          · intro x hx
            rcases List.mem_append.mp hx with hx2 | hxid
            · obtain ⟨hxP, hxg1, m, hm, hreach⟩ := hprops2 x hx2
              exact ⟨hxP, fun hxg => hxg1 (List.mem_cons_of_mem id hxg),
                hlift m hm x hreach⟩
            · rcases List.mem_singleton.mp hxid with rfl
              exact ⟨hP, hG, hreachid⟩
          · intro x hx r0 hr0 z hz hzP
            rcases List.mem_append.mp hx with hx2 | hxid
            · exact hclos2 x hx2 r0 hr0 z hz hzP
            · rcases List.mem_singleton.mp hxid with rfl
              rw [hr] at hr0
              cases hr0
              exact hns z hz hzP

theorem ReachA_anti {s : Store} {P Q : List Str} (hPQ : ∀ x ∈ P, x ∈ Q)
    {x y : Str} (h : ReachA s Q x y) : ReachA s P x y := by
  induction h with
  | refl h1 h2 => exact ReachA.refl _ (fun hc => h1 (hPQ _ hc)) h2
  | step b c r hab hb hc hc2 hc3 ih =>
    exact ReachA.step _ b c r ih hb hc (fun hcc => hc2 (hPQ _ hcc)) hc3

/-! ### Fuel never runs out: a measure on the unvisited store -/

theorem filter_length_mono {α : Type} (l : List α) (p q : α → Bool)
    (h : ∀ x ∈ l, p x = true → q x = true) :
    (l.filter p).length ≤ (l.filter q).length := by
  induction l with
  | nil => simp
  | cons b bs ih =>
    have ihb := ih (fun x hx => h x (List.mem_cons_of_mem b hx))
    rw [List.filter_cons, List.filter_cons]
    cases hb : p b with
    | true =>
      rw [if_pos rfl, if_pos (h b (List.mem_cons_self b bs) hb)]
      simpa using ihb
    | false =>
      rw [if_neg Bool.false_ne_true]
      cases hq : q b with
      | true =>
        rw [if_pos rfl]
        exact le_trans ihb (by simp)
      | false =>
        rw [if_neg Bool.false_ne_true]
        exact ihb

theorem filter_length_strict {α : Type} (l : List α) (p q : α → Bool)
    (h : ∀ x ∈ l, p x = true → q x = true) (a : α) (ha : a ∈ l)
    (haq : q a = true) (hap : p a = false) :
    (l.filter p).length < (l.filter q).length := by
  induction l with
  | nil => cases ha
  | cons b bs ih =>
    have hmono := filter_length_mono bs p q (fun x hx => h x (List.mem_cons_of_mem b hx))
    rw [List.filter_cons, List.filter_cons]
    rcases List.mem_cons.mp ha with rfl | habs
    · rw [if_neg (by rw [hap]; exact Bool.false_ne_true), if_pos haq]
      simpa using Nat.lt_succ_of_le hmono
    · have ihb := ih (fun x hx => h x (List.mem_cons_of_mem b hx)) habs
      cases hb : p b with
      | true =>
        rw [if_pos rfl, if_pos (h b (List.mem_cons_self b bs) hb)]
        simpa using ihb
      | false =>
        rw [if_neg Bool.false_ne_true]
        cases hq : q b with
        | true =>
          rw [if_pos rfl]
          exact lt_of_lt_of_le ihb (by simp)
        | false =>
          rw [if_neg Bool.false_ne_true]
          exact ihb

/-- The number of store keys not yet in the visited list `g`: the measure
that shrinks at every recursive `count`/`collectEdges` call. -/
def gMeasure (s : Store) (g : List Str) : Nat :=
  ((s.map Prod.fst).dedup.filter (fun x => !decide (x ∈ g))).length

theorem gMeasure_mono (s : Store) (g g' : List Str) (hsub : ∀ x ∈ g, x ∈ g') :
    gMeasure s g' ≤ gMeasure s g := by
  refine filter_length_mono _ _ _ ?_
  intro x _ hx
  simp only [Bool.not_eq_true', decide_eq_false_iff_not] at hx ⊢
  exact fun hc => hx (hsub x hc)

theorem gMeasure_strict (s : Store) (g : List Str) (id : Str)
    (hid : id ∈ s.map Prod.fst) (hg : id ∉ g) :
    gMeasure s (id :: g) < gMeasure s g := by
  refine filter_length_strict _ _ _ ?_ id (List.mem_dedup.mpr hid) ?_ ?_
  · intro x _ hx
    simp only [Bool.not_eq_true', decide_eq_false_iff_not, List.mem_cons, not_or] at hx ⊢
    exact hx.2
  · simp [hg]
  · simp

theorem gMeasure_le (s : Store) : gMeasure s [] ≤ s.length := by
  calc gMeasure s []
      ≤ (s.map Prod.fst).dedup.length := List.length_filter_le _ _
    _ ≤ (s.map Prod.fst).length := (List.dedup_sublist _).length_le
    _ = s.length := List.length_map _ _

theorem countList_some (s : Store) (P : List Str) (fuel : Nat)
    (IH : ∀ (g : List Str) (id : Str), gMeasure s g < fuel →
      (id ∈ P ∨ id ∈ g ∨ id ∈ s.map Prod.fst) →
      (count s P fuel g id).isSome) :
    ∀ (ns : List Str) (g : List Str) (c : Nat), gMeasure s g < fuel →
      (∀ n ∈ ns, n ∈ s.map Prod.fst) →
      (countList (count s P fuel) g ns c).isSome := by
  intro ns
  induction ns with
  | nil =>
    intro g c _ _
    simp [countList]
  | cons n ns ih =>
    intro g c hm hns
    unfold countList
    have h1 := IH g n hm (Or.inr (Or.inr (hns n (List.mem_cons_self n ns))))
    cases hcnt : count s P fuel g n with
    | none => rw [hcnt] at h1; exact absurd h1 (by simp)
    | some pr =>
      obtain ⟨c', g'⟩ := pr
      dsimp only
      obtain ⟨new, hg', -, -, -, -, -⟩ := count_spec s P fuel g n c' g' hcnt
      have hsub : ∀ x ∈ g, x ∈ g' := by
        intro x hx
        rw [hg']
        exact List.mem_append_right new hx
      exact ih g' (c + c') (lt_of_le_of_lt (gMeasure_mono s g g' hsub) hm)
        (fun m hm' => hns m (List.mem_cons_of_mem n hm'))

theorem count_some (s : Store) (P : List Str) (hcl : refsClosed s) :
    ∀ (fuel : Nat) (g : List Str) (id : Str), gMeasure s g < fuel →
      (id ∈ P ∨ id ∈ g ∨ id ∈ s.map Prod.fst) →
      (count s P fuel g id).isSome := by
  intro fuel
  induction fuel with
  | zero => intro g id hm; exact absurd hm (Nat.not_lt_zero _)
  | succ fuel ih =>
    intro g id hm hid
    unfold count
    by_cases hP : id ∈ P
    · rw [if_pos hP]; rfl
    · rw [if_neg hP]
      by_cases hG : id ∈ g
      · rw [if_pos hG]; rfl
      · rw [if_neg hG]
        have hkey : id ∈ s.map Prod.fst := by
          rcases hid with h | h | h
          · exact absurd h hP
          · exact absurd h hG
          · exact h
        have hsome : (GetRFC s id).isSome := (mapLookup_isSome_iff s id).mpr hkey
        cases hr : GetRFC s id with
        | none => rw [hr] at hsome; exact absurd hsome (by simp)
        | some r =>
          dsimp only
          have hm' : gMeasure s (id :: g) < fuel :=
            lt_of_lt_of_le (gMeasure_strict s g id hkey hG) (Nat.lt_succ_iff.mp hm)
          refine countList_some s P fuel (fun g' id' hm'' hid'' => ih g' id' hm'' hid'')
            _ (id :: g) 1 hm' ?_
          intro n hn
          exact hcl id r hr n hn

/-- From an empty visited list, a successful `count` returns exactly the
set of records reachable from `id` outside `P`, without duplicates, and
its count is the size of that set. -/
theorem count_reach_set (s : Store) (P : List Str) (fuel : Nat) (id : Str)
    (c : Nat) (g' : List Str) (h : count s P fuel [] id = some (c, g')) :
    g'.Nodup ∧ c = g'.length ∧ ∀ x, x ∈ g' ↔ ReachA s P id x := by
  obtain ⟨new, hg, hc, hnd, hmem, hprops, hclos⟩ := count_spec s P fuel [] id c g' h
  rw [List.append_nil] at hg
  subst hg
  refine ⟨hnd, by rw [hc], ?_⟩
  intro x
  constructor
  · intro hx
    exact (hprops x hx).2.2
  · intro hr
    induction hr with
    | refl h1 _ => exact hmem h1 (List.not_mem_nil _)
    | step y z r _ hy hz hzP _ ih => exact hclos y ih r hy z hz hzP

/-! ### The leader fold of `countGraph` -/

theorem foldlMin_go : ∀ (g : List Str) (l : Str),
    ∃ l', g.foldl (fun acc m => match acc with
        | none => some m
        | some w => if ltStr m w then some m else some w) (some l) = some l' ∧
      (l' = l ∨ l' ∈ g) ∧ ∀ m, (m = l ∨ m ∈ g) → ltStr m l' = false := by
  intro g
  induction g with
  | nil =>
    intro l
    refine ⟨l, rfl, Or.inl rfl, ?_⟩
    rintro m (rfl | hm)
    · exact ltStr_irrefl m
    · cases hm
  | cons b bs ih =>
    intro l
    rw [List.foldl_cons]
    dsimp only
    by_cases hbl : ltStr b l = true
    · rw [if_pos hbl]
      obtain ⟨l', he, hmem, hmin⟩ := ih b
      refine ⟨l', he, ?_, ?_⟩
      · rcases hmem with rfl | hm
        · exact Or.inr (List.mem_cons_self l' bs)
        · exact Or.inr (List.mem_cons_of_mem b hm)
      · rintro m (rfl | hm2)
        · cases hll : ltStr m l' with
          | false => rfl
          | true =>
            have hb' : ltStr b l' = true := ltStr_trans b m l' hbl hll
            rw [hmin b (Or.inl rfl)] at hb'
            exact absurd hb' (by decide)
        · rcases List.mem_cons.mp hm2 with rfl | hmbs
          · exact hmin m (Or.inl rfl)
          · exact hmin m (Or.inr hmbs)
    · rw [if_neg hbl]
      have hbl' : ltStr b l = false := by
        cases hx : ltStr b l
        · rfl
        · exact absurd hx hbl
      obtain ⟨l', he, hmem, hmin⟩ := ih l
      refine ⟨l', he, ?_, ?_⟩
      · rcases hmem with rfl | hm
        · exact Or.inl rfl
        · exact Or.inr (List.mem_cons_of_mem b hm)
      · rintro m (rfl | hm2)
        · exact hmin m (Or.inl rfl)
        · rcases List.mem_cons.mp hm2 with rfl | hmbs
          · by_cases hlb : ltStr l m = true
            · cases hbb : ltStr m l' with
              | false => rfl
              | true =>
                have h1 : ltStr l l' = false := hmin l (Or.inl rfl)
                have h2 : ltStr l l' = true := ltStr_trans l m l' hlb hbb
                rw [h1] at h2
                exact absurd h2 (by decide)
            · have hlb' : ltStr l m = false := by
                cases hx : ltStr l m
                · rfl
                · exact absurd hx hlb
              exact hmin m (Or.inl (ltStr_conn m l hbl' hlb'))
          · exact hmin m (Or.inr hmbs)

/-- The leader fold over a nonempty visited list returns a member that is
minimal under the Go string order. -/
theorem foldlMin_spec (g : List Str) (hne : g ≠ []) :
    ∃ l', g.foldl (fun acc m => match acc with
        | none => some m
        | some w => if ltStr m w then some m else some w) none = some l' ∧
      l' ∈ g ∧ ∀ m ∈ g, ltStr m l' = false := by
  cases g with
  | nil => exact absurd rfl hne
  | cons b bs =>
    rw [List.foldl_cons]
    obtain ⟨l', he, hmem, hmin⟩ := foldlMin_go bs b
    refine ⟨l', he, ?_, ?_⟩
    · rcases hmem with rfl | hm
      · exact List.mem_cons_self l' bs
      · exact List.mem_cons_of_mem b hm
    · intro m hm
      rcases List.mem_cons.mp hm with rfl | hmbs
      · exact hmin m (Or.inl rfl)
      · exact hmin m (Or.inr hmbs)

/-- Two minimal members of lists with the same membership coincide. -/
theorem ltStr_min_unique {g1 g2 : List Str} (hset : ∀ x, x ∈ g1 ↔ x ∈ g2)
    {l1 l2 : Str} (h1 : l1 ∈ g1) (hm1 : ∀ m ∈ g1, ltStr m l1 = false)
    (h2 : l2 ∈ g2) (hm2 : ∀ m ∈ g2, ltStr m l2 = false) : l1 = l2 :=
  ltStr_conn l1 l2 (hm2 l1 ((hset l1).mp h1)) (hm1 l2 ((hset l2).mpr h2))

/-- `countGraph` on an already-processed root reports an empty component. -/
theorem countGraph_mem (s : Store) (P : List Str) (id : Str) (h : id ∈ P) :
    countGraph s P id = some (0, none) := by
  have hcnt : count s P (s.length + 1) [] id = some (0, []) := by
    unfold count
    rw [if_pos h]
  unfold countGraph
  rw [hcnt]
  rfl

/-- On an unprocessed root known to the store, `countGraph` succeeds and
returns the size of the root's reachable set together with its minimal
member as leader. -/
theorem countGraph_run (s : Store) (P : List Str) (id : Str)
    (hcl : refsClosed s) (hP : id ∉ P) (hid : id ∈ s.map Prod.fst) :
    ∃ (cnt : Nat) (l : Str) (g' : List Str), countGraph s P id = some (cnt, some l) ∧
      0 < cnt ∧ g'.Nodup ∧ cnt = g'.length ∧
      (∀ x, x ∈ g' ↔ ReachA s P id x) ∧ l ∈ g' ∧ ∀ m ∈ g', ltStr m l = false := by
  have hsome := count_some s P hcl (s.length + 1) [] id
    (Nat.lt_succ_of_le (gMeasure_le s)) (Or.inr (Or.inr hid))
  cases hcount : count s P (s.length + 1) [] id with
  | none => rw [hcount] at hsome; exact absurd hsome (by simp)
  | some pr =>
    obtain ⟨c, g'⟩ := pr
    obtain ⟨hnd, hlen, hiff⟩ := count_reach_set s P _ id c g' hcount
    have hidg : id ∈ g' :=
      (hiff id).mpr (ReachA.refl id hP ((mapLookup_isSome_iff s id).mpr hid))
    have hne : g' ≠ [] := List.ne_nil_of_mem hidg
    have hpos : 0 < c := by
      rw [hlen]
      exact List.length_pos.mpr hne
    obtain ⟨l, hfold, hl, hmin⟩ := foldlMin_spec g' hne
    refine ⟨c, l, g', ?_, hpos, hnd, hlen, hiff, hl, hmin⟩
    unfold countGraph
    rw [hcount]
    dsimp only
    rw [if_pos hpos, hfold]

/-! ### What `collectEdges` marks as processed -/

theorem collectList_spec (s : Store) (fuel : Nat)
    (IH : ∀ (p : List Str) (e : List (Str × Edge)) (id : Str)
      (p' : List Str) (e' : List (Str × Edge)),
      collectEdges s fuel p e id = some (p', e') →
      ∃ newP, p' = newP ++ p ∧ newP.Nodup ∧
        (id ∉ p → id ∈ newP) ∧
        (∀ x ∈ newP, x ∉ p ∧ ReachA s p id x) ∧
        (∀ x ∈ newP, ∀ r, GetRFC s x = some r → ∀ z ∈ refsOf r, z ∈ p')) :
    ∀ (ns : List (Str × Nat)) (p : List Str) (e : List (Str × Edge))
      (id : Str) (fwd : Bool) (p' : List Str) (e' : List (Str × Edge)),
      collectList (collectEdges s fuel) p e id fwd ns = some (p', e') →
      ∃ newP, p' = newP ++ p ∧ newP.Nodup ∧
        (∀ x ∈ newP, x ∉ p ∧ ∃ n ∈ ns.map Prod.fst, ReachA s p n x) ∧
        (∀ x ∈ newP, ∀ r, GetRFC s x = some r → ∀ z ∈ refsOf r, z ∈ p') ∧
        (∀ n ∈ ns.map Prod.fst, n ∈ p') := by
  intro ns
  induction ns with
  | nil =>
    intro p e id fwd p' e' h
    unfold collectList at h
    simp only [Option.some.injEq, Prod.mk.injEq] at h
    obtain ⟨hp, -⟩ := h
    refine ⟨[], by rw [← hp]; rfl, List.nodup_nil, ?_, ?_, ?_⟩
    · intro x hx; exact absurd hx (List.not_mem_nil x)
    · intro x hx; exact absurd hx (List.not_mem_nil x)
    · intro n hn; exact absurd hn (by simp)
  | cons q ns ih =>
    intro p e id fwd p' e' h
    obtain ⟨n, t⟩ := q
    unfold collectList at h
    dsimp only at h
    cases hce : collectEdges s fuel p
        (mapInsert e (if fwd then (⟨id, n, t⟩ : Edge) else ⟨n, id, t⟩).ID
          (if fwd then ⟨id, n, t⟩ else ⟨n, id, t⟩)) n with
    | none => rw [hce] at h; exact absurd h (by simp)
    | some pr =>
      obtain ⟨p1, e1⟩ := pr
      rw [hce] at h
      dsimp only at h
      obtain ⟨new1, hp1, hnd1, hmem1, hprops1, hclos1⟩ := IH p _ n p1 e1 hce
      obtain ⟨new2, hp2, hnd2, hprops2, hclos2, hns2⟩ := ih p1 e1 id fwd p' e' h
      have hsub1 : ∀ x ∈ new1, x ∈ p1 := by
        intro x hx
        rw [hp1]
        exact List.mem_append_left p hx
      have hsubp : ∀ x ∈ p, x ∈ p1 := by
        intro x hx
        rw [hp1]
        exact List.mem_append_right new1 hx
      have hsubp' : ∀ x ∈ p1, x ∈ p' := by
        intro x hx
        rw [hp2]
        exact List.mem_append_right new2 hx
      refine ⟨new2 ++ new1, ?_, ?_, ?_, ?_, ?_⟩
      · rw [hp2, hp1, List.append_assoc]
      · refine List.Nodup.append hnd2 hnd1 ?_
        intro x hx2 hx1
        exact (hprops2 x hx2).1 (hsub1 x hx1)
      · intro x hx
        rcases List.mem_append.mp hx with hx2 | hx1
        · obtain ⟨hxp1, m, hm, hreach⟩ := hprops2 x hx2
          exact ⟨fun hxp => hxp1 (hsubp x hxp), m,
            List.mem_cons_of_mem n hm, ReachA_anti hsubp hreach⟩
        · obtain ⟨hxp, hreach⟩ := hprops1 x hx1
          exact ⟨hxp, n, by simp, hreach⟩
      · intro x hx r hr z hz
        rcases List.mem_append.mp hx with hx2 | hx1
        · exact hclos2 x hx2 r hr z hz
        · exact hsubp' z (hclos1 x hx1 r hr z hz)
      · intro m hm
        rcases List.mem_cons.mp hm with rfl | hmns
        · by_cases hmp : m ∈ p
          · exact hsubp' m (hsubp m hmp)
          · exact hsubp' m (hsub1 m (hmem1 hmp))
        · exact hns2 m hmns

theorem collectEdges_spec (s : Store) :
    ∀ (fuel : Nat) (p : List Str) (e : List (Str × Edge)) (id : Str)
      (p' : List Str) (e' : List (Str × Edge)),
      collectEdges s fuel p e id = some (p', e') →
      ∃ newP, p' = newP ++ p ∧ newP.Nodup ∧
        (id ∉ p → id ∈ newP) ∧
        (∀ x ∈ newP, x ∉ p ∧ ReachA s p id x) ∧
        (∀ x ∈ newP, ∀ r, GetRFC s x = some r → ∀ z ∈ refsOf r, z ∈ p') := by
  intro fuel
  induction fuel with
  | zero => intro p e id p' e' h; simp [collectEdges] at h
  | succ fuel ih =>
    intro p e id p' e' h
    unfold collectEdges at h
    by_cases hP : id ∈ p
    · rw [if_pos hP] at h
      simp only [Option.some.injEq, Prod.mk.injEq] at h
      refine ⟨[], by rw [← h.1]; rfl, List.nodup_nil, ?_, ?_, ?_⟩
      · intro hc; exact absurd hP hc
      · intro x hx; exact absurd hx (List.not_mem_nil x)
      · intro x hx; exact absurd hx (List.not_mem_nil x)
    · rw [if_neg hP] at h
      cases hr : GetRFC s id with
      | none => rw [hr] at h; exact absurd h (by simp)
      | some r =>
        rw [hr] at h
        dsimp only at h
        cases hcf : collectList (collectEdges s fuel) (id :: p) e id true r.Forwards with
        | none => rw [hcf] at h; exact absurd h (by simp)
        | some prf =>
          obtain ⟨pf, ef⟩ := prf
          rw [hcf] at h
          dsimp only at h
          obtain ⟨newA, hpf, hndA, hpropsA, hclosA, hnsA⟩ :=
            collectList_spec s fuel ih r.Forwards (id :: p) e id true pf ef hcf
          obtain ⟨newB, hpB, hndB, hpropsB, hclosB, hnsB⟩ :=
            collectList_spec s fuel ih r.Backwards pf ef id false p' e' h
          have hidsome : (GetRFC s id).isSome := by rw [hr]; rfl
          have hreachid : ReachA s p id id := ReachA.refl id hP hidsome
          have hsubA : ∀ x ∈ newA, x ∈ pf := by
            intro x hx
            rw [hpf]
            exact List.mem_append_left _ hx
          have hsubidp : ∀ x, x ∈ id :: p → x ∈ pf := by
            intro x hx
            rw [hpf]
            exact List.mem_append_right newA hx
          have hsubpf : ∀ x ∈ pf, x ∈ p' := by
            intro x hx
            rw [hpB]
            exact List.mem_append_right newB hx
          have hanti : ∀ x ∈ p, x ∈ id :: p := fun x hx => List.mem_cons_of_mem id hx
          have hantif : ∀ x ∈ p, x ∈ pf := fun x hx => hsubidp x (hanti x hx)
          have hlift : ∀ n, n ∈ refsOf r → ∀ x, ReachA s p n x → ReachA s p id x := by
            intro n hn x hx
            have hsrc := ReachA_src hx
            exact ReachA_trans
              (ReachA.step id id n r hreachid hr hn hsrc.1 hsrc.2) hx
          refine ⟨newB ++ newA ++ [id], ?_, ?_, ?_, ?_, ?_⟩
          · rw [hpB, hpf, List.append_assoc, List.append_assoc]
            rfl
          · refine List.Nodup.append (List.Nodup.append hndB hndA ?_) (List.nodup_singleton id) ?_
            · intro x hxB hxA
              exact (hpropsB x hxB).1 (hsubA x hxA)
            · intro x hx hxid
              rcases List.mem_singleton.mp hxid with rfl
              rcases List.mem_append.mp hx with hxB | hxA
              · exact (hpropsB x hxB).1 (hsubidp x (List.mem_cons_self x p))
              · exact (hpropsA x hxA).1 (List.mem_cons_self x p)
          · intro _
            exact List.mem_append_right _ (List.mem_singleton.mpr rfl)
          · intro x hx
            rcases List.mem_append.mp hx with hx' | hxid
            · rcases List.mem_append.mp hx' with hxB | hxA
              · obtain ⟨hxpf, m, hm, hreach⟩ := hpropsB x hxB
                have hm' : m ∈ refsOf r :=
                  List.mem_append_right _ hm
                exact ⟨fun hxp => hxpf (hantif x hxp),
                  hlift m hm' x (ReachA_anti hantif hreach)⟩
              · obtain ⟨hxip, m, hm, hreach⟩ := hpropsA x hxA
                have hm' : m ∈ refsOf r :=
                  List.mem_append_left _ hm
                exact ⟨fun hxp => hxip (List.mem_cons_of_mem id hxp),
                  hlift m hm' x (ReachA_anti hanti hreach)⟩
            · rcases List.mem_singleton.mp hxid with rfl
              exact ⟨hP, hreachid⟩
          · intro x hx r0 hr0 z hz
            rcases List.mem_append.mp hx with hx' | hxid
            · rcases List.mem_append.mp hx' with hxB | hxA
              · exact hclosB x hxB r0 hr0 z hz
              · exact hsubpf z (hclosA x hxA r0 hr0 z hz)
            · rcases List.mem_singleton.mp hxid with rfl
              rw [hr] at hr0
              cases hr0
              rcases List.mem_append.mp hz with hzf | hzb
              · exact hsubpf z (hnsA z hzf)
              · exact hnsB z hzb

/-- A successful `collectEdges` marks every record reachable from its
root outside the initial processed set. -/
theorem collectEdges_complete (s : Store) (fuel : Nat) (p : List Str)
    (e : List (Str × Edge)) (id : Str) (p' : List Str) (e' : List (Str × Edge))
    (h : collectEdges s fuel p e id = some (p', e')) :
    ∀ x, ReachA s p id x → x ∈ p' := by
  obtain ⟨newP, hp', hnd, hmem, hsound, hclos⟩ := collectEdges_spec s fuel p e id p' e' h
  intro x hx
  induction hx with
  | refl h1 _ =>
    rw [hp']
    exact List.mem_append_left p (hmem h1)
  | step y z r hxy hy hz _ _ ih =>
    rw [hp'] at ih
    rcases List.mem_append.mp ih with hyn | hyp
    · exact hclos y hyn r hy z hz
    · exact absurd hyp (ReachA_dst hxy).1

theorem collectList_some (s : Store) (fuel : Nat)
    (IH : ∀ (p : List Str) (e : List (Str × Edge)) (id : Str),
      gMeasure s p < fuel → (id ∈ p ∨ id ∈ s.map Prod.fst) →
      (collectEdges s fuel p e id).isSome) :
    ∀ (ns : List (Str × Nat)) (p : List Str) (e : List (Str × Edge))
      (id : Str) (fwd : Bool), gMeasure s p < fuel →
      (∀ n ∈ ns.map Prod.fst, n ∈ s.map Prod.fst) →
      (collectList (collectEdges s fuel) p e id fwd ns).isSome := by
  intro ns
  induction ns with
  | nil =>
    intro p e id fwd _ _
    simp [collectList]
  | cons q ns ih =>
    intro p e id fwd hm hns
    obtain ⟨n, t⟩ := q
    unfold collectList
    dsimp only
    have h1 := IH p
      (mapInsert e (if fwd then (⟨id, n, t⟩ : Edge) else ⟨n, id, t⟩).ID
        (if fwd then ⟨id, n, t⟩ else ⟨n, id, t⟩)) n hm
      (Or.inr (hns n (by simp)))
    cases hce : collectEdges s fuel p
        (mapInsert e (if fwd then (⟨id, n, t⟩ : Edge) else ⟨n, id, t⟩).ID
          (if fwd then ⟨id, n, t⟩ else ⟨n, id, t⟩)) n with
    | none => rw [hce] at h1; exact absurd h1 (by simp)
    | some pr =>
      obtain ⟨p1, e1⟩ := pr
      dsimp only
      obtain ⟨new1, hp1, -, -, -, -⟩ := collectEdges_spec s fuel p _ n p1 e1 hce
      have hsub : ∀ x ∈ p, x ∈ p1 := by
        intro x hx
        rw [hp1]
        exact List.mem_append_right new1 hx
      refine ih p1 e1 id fwd (lt_of_le_of_lt (gMeasure_mono s p p1 hsub) hm) ?_
      intro m hm'
      exact hns m (List.mem_cons_of_mem n hm')

theorem collectEdges_some (s : Store) (hcl : refsClosed s) :
    ∀ (fuel : Nat) (p : List Str) (e : List (Str × Edge)) (id : Str),
      gMeasure s p < fuel → (id ∈ p ∨ id ∈ s.map Prod.fst) →
      (collectEdges s fuel p e id).isSome := by
  intro fuel
  induction fuel with
  | zero => intro p e id hm; exact absurd hm (Nat.not_lt_zero _)
  | succ fuel ih =>
    intro p e id hm hid
    unfold collectEdges
    by_cases hP : id ∈ p
    · rw [if_pos hP]; rfl
    · rw [if_neg hP]
      have hkey : id ∈ s.map Prod.fst := by
        rcases hid with h | h
        · exact absurd h hP
        · exact h
      have hsome : (GetRFC s id).isSome := (mapLookup_isSome_iff s id).mpr hkey
      cases hr : GetRFC s id with
      | none => rw [hr] at hsome; exact absurd hsome (by simp)
      | some r =>
        dsimp only
        have hm' : gMeasure s (id :: p) < fuel :=
          lt_of_lt_of_le (gMeasure_strict s p id hkey hP) (Nat.lt_succ_iff.mp hm)
        have hfwd := collectList_some s fuel
          (fun p' e' id' hm'' hid'' => ih p' e' id' hm'' hid'')
          r.Forwards (id :: p) e id true hm'
          (fun n hn => hcl id r hr n (List.mem_append_left _ hn))
        cases hcf : collectList (collectEdges s fuel) (id :: p) e id true r.Forwards with
        | none => rw [hcf] at hfwd; exact absurd hfwd (by simp)
        | some prf =>
          obtain ⟨pf, ef⟩ := prf
          dsimp only
          obtain ⟨newA, hpf, -, -, -, -⟩ :=
            collectList_spec s fuel (collectEdges_spec s fuel) r.Forwards
              (id :: p) e id true pf ef hcf
          have hsub : ∀ x ∈ id :: p, x ∈ pf := by
            intro x hx
            rw [hpf]
            exact List.mem_append_right newA hx
          have hmf : gMeasure s pf < fuel :=
            lt_of_le_of_lt
              (gMeasure_mono s (id :: p) pf hsub) hm'
          exact collectList_some s fuel
            (fun p' e' id' hm'' hid'' => ih p' e' id' hm'' hid'')
            r.Backwards pf ef id false hmf
            (fun n hn => hcl id r hr n (List.mem_append_right _ hn))

/-! ### Claim C4: the component leader -/

/-- Executable symmetry check of a concrete store: every mentioned
identifier resolves, and mentions it back. -/
def symCheck (s : Store) : Bool :=
  s.all (fun p => (refsOf p.2).all (fun y =>
    match GetRFC s y with
    | none => false
    | some r' => decide (p.1 ∈ refsOf r')))

theorem symStore_of_symCheck (s : Store) (h : symCheck s = true) : symStore s := by
  intro x r hx y hy
  have hmem : (x, r) ∈ s := mapLookup_some_mem hx
  have h1 := List.all_eq_true.mp h (x, r) hmem
  have h2 := List.all_eq_true.mp h1 y hy
  cases hg : GetRFC s y with
  | none =>
    rw [hg] at h2
    exact absurd h2 (by simp)
  | some r' =>
    rw [hg] at h2
    exact ⟨r', rfl, of_decide_eq_true h2⟩

/-- Record `5` of the asymmetric store: it declares `Updates RFC100`,
but `100` does not declare the relation back. -/
def asymR5 : RFC :=
  { Number := "5".data, Title := "T5".data, Authors := "A".data,
    Date := "April 1989".data, Typ := Current, Status := Unknown,
    Forwards := [("100".data, Updated)], Backwards := [], Params := [] }

/-- A plain record `100` with no declared relations. -/
def asymR100 : RFC :=
  { Number := "100".data, Title := "T100".data, Authors := "A".data,
    Date := "May 1990".data, Typ := Current, Status := Unknown,
    Forwards := [], Backwards := [], Params := [] }

/-- A store whose mention graph is not symmetric: `5` mentions `100`,
`100` mentions nothing. -/
def asymStore : Store := [("5".data, asymR5), ("100".data, asymR100)]

/-- Counterexample to claim C4 as stated: in `asymStore`, `100` is a
member of the component discovered from root `5` (the visited list of
`count` is `["100", "5"]`), yet re-running discovery from member `100`
returns size `1`, not the size `2` of the first discovery — without index
symmetry, starting from another member of the same component does not
yield the identical size. -/
theorem countGraph_root_dependent :
    countGraph asymStore [] "5".data = some (2, some "100".data) ∧
    count asymStore [] (asymStore.length + 1) [] "5".data
      = some (2, ["100".data, "5".data]) ∧
    countGraph asymStore [] "100".data = some (1, some "100".data) := by
  decide

/-- Claim C4, amended: on a store whose relation mentions are symmetric,
`countGraph` from an unprocessed known root reports as leader the
lexicographically smallest (Go string order, not numeric) member of the
root's reachable component and as count the component's size, and
starting discovery from any other member of that component returns the
identical count and the identical leader. -/
theorem countGraph_leader (s : Store) (P : List Str) (id id2 : Str)
    (hsym : symStore s) (hP : id ∉ P) (hid : id ∈ s.map Prod.fst)
    (cnt : Nat) (res : Option Str)
    (h : countGraph s P id = some (cnt, res)) :
    (∃ (l : Str) (g' : List Str), res = some l ∧ 0 < cnt ∧ g'.Nodup ∧
      cnt = g'.length ∧ (∀ x, x ∈ g' ↔ ReachA s P id x) ∧
      l ∈ g' ∧ ∀ m ∈ g', ltStr m l = false) ∧
    (ReachA s P id id2 → countGraph s P id2 = some (cnt, res)) := by
  have hcl := symStore_refsClosed hsym
  obtain ⟨cnt', l, g', hrun, hpos, hnd, hlen, hiff, hl, hmin⟩ :=
    countGraph_run s P id hcl hP hid
  rw [h] at hrun
  simp only [Option.some.injEq, Prod.mk.injEq] at hrun
  obtain ⟨hceq, hres⟩ := hrun
  have hclen : cnt = g'.length := hceq.trans hlen
  constructor
  · exact ⟨l, g', hres, hceq ▸ hpos, hnd, hclen, hiff, hl, hmin⟩
  · intro hreach
    have hd := ReachA_dst hreach
    have hid2 : id2 ∈ s.map Prod.fst := (mapLookup_isSome_iff s id2).mp hd.2
    obtain ⟨cnt2, l2, g2, hrun2, hpos2, hnd2, hlen2, hiff2, hl2, hmin2⟩ :=
      countGraph_run s P id2 hcl hd.1 hid2
    have hsetiff : ∀ x, x ∈ g2 ↔ x ∈ g' := by
      intro x
      rw [hiff2, hiff]
      exact (ReachA_class hsym hreach x).symm
    have hperm : g2.Perm g' := (List.perm_ext_iff_of_nodup hnd2 hnd).mpr hsetiff
    have hleneq : cnt2 = cnt := hlen2.trans (hperm.length_eq.trans hclen.symm)
    have hleq : l2 = l := ltStr_min_unique hsetiff hl2 hmin2 hl hmin
    rw [hrun2, hleneq, hleq, hres]

/-- Witness for C4: in the symmetric store `wStore`, discovery from `50`
and from `100` both report the component of size 2 with leader `100`
(the string-smallest member). -/
theorem countGraph_leader_witness :
    countGraph wStore [] "50".data = some (2, some "100".data) ∧
    countGraph wStore [] "100".data = some (2, some "100".data) := by
  refine ⟨by decide, ?_⟩
  have hreach : ReachA wStore [] "50".data "100".data :=
    ReachA.step "50".data "50".data "100".data wR50
      (ReachA.refl "50".data (List.not_mem_nil _) (by decide))
      (by decide) (by decide) (List.not_mem_nil _) (by decide)
  exact (countGraph_leader wStore [] "50".data "100".data
      (symStore_of_symCheck wStore (by decide)) (List.not_mem_nil _) (by decide)
      2 (some "100".data) (by decide)).2 hreach

/-! ### Claim C3: the driver sweep -/

/-- Invariant of the `findGraphs` sweep with minimum size 0 over a
symmetric store: the sweep succeeds, the processed list stays duplicate
free and inside the store, it only grows, every swept root ends up
processed, and the recorded component sizes grow exactly with the
processed list. -/
theorem findGraphs_spec (s : Store) (hsym : symStore s) :
    ∀ (roots : List Str) (st : GState),
      (∀ rt ∈ roots, rt ∈ s.map Prod.fst) →
      st.processed.Nodup →
      (∀ x ∈ st.processed, x ∈ s.map Prod.fst) →
      ∃ st', findGraphs s 0 roots st = some st' ∧
        st'.processed.Nodup ∧
        (∀ x ∈ st'.processed, x ∈ s.map Prod.fst) ∧
        (∀ x ∈ st.processed, x ∈ st'.processed) ∧
        (∀ rt ∈ roots, rt ∈ st'.processed) ∧
        (st'.graphs.map Graph.Size).sum + st.processed.length
          = (st.graphs.map Graph.Size).sum + st'.processed.length := by
  have hcl := symStore_refsClosed hsym
  intro roots
  induction roots with
  | nil =>
    intro st _ hnd hsub
    exact ⟨st, rfl, hnd, hsub, fun x hx => hx, by simp, rfl⟩
  | cons rt rest ih =>
    intro st hroots hnd hsub
    unfold findGraphs
    by_cases hrtP : rt ∈ st.processed
    · rw [countGraph_mem s st.processed rt hrtP]
      dsimp only
      rw [if_neg (by simp)]
      obtain ⟨st', hrun, h1, h2, h3, h4, h5⟩ :=
        ih st (fun x hx => hroots x (List.mem_cons_of_mem rt hx)) hnd hsub
      refine ⟨st', hrun, h1, h2, h3, ?_, h5⟩
      intro x hx
      rcases List.mem_cons.mp hx with rfl | hxr
      · exact h3 x hrtP
      · exact h4 x hxr
    · have hrtkey : rt ∈ s.map Prod.fst := hroots rt (List.mem_cons_self rt rest)
      obtain ⟨cnt, l, g', hrun, hpos, hndg, hlen, hiff, hl, hmin⟩ :=
        countGraph_run s st.processed rt hcl hrtP hrtkey
      rw [hrun]
      dsimp only
      rw [if_pos ⟨Int.natCast_nonneg cnt, hpos⟩]
      have hreach_rt_l : ReachA s st.processed rt l := (hiff l).mp hl
      have hlkey : l ∈ s.map Prod.fst :=
        (mapLookup_isSome_iff s l).mp (ReachA_dst hreach_rt_l).2
      have hmz : gMeasure s st.processed < s.length + 1 :=
        Nat.lt_succ_of_le (le_trans
          (gMeasure_mono s [] st.processed (fun x hx => absurd hx (List.not_mem_nil x)))
          (gMeasure_le s))
      have hlsome := collectEdges_some s hcl (s.length + 1) st.processed st.edgeMap l
        hmz (Or.inr hlkey)
      cases hce : collectEdges s (s.length + 1) st.processed st.edgeMap l with
      | none => rw [hce] at hlsome; exact absurd hlsome (by simp)
      | some pr =>
        obtain ⟨p', e'⟩ := pr
        dsimp only
        obtain ⟨newP, hp', hndP, hmemP, hsoundP, -⟩ :=
          collectEdges_spec s _ _ _ _ _ _ hce
        have hclass := ReachA_class hsym hreach_rt_l
        have hsetiff : ∀ x, x ∈ newP ↔ x ∈ g' := by
          intro x
          rw [hiff x]
          constructor
          · intro hx
            exact (hclass x).mpr ((hsoundP x hx).2)
          · intro hx
            have hlx : ReachA s st.processed l x := (hclass x).mp hx
            have hxp' := collectEdges_complete s _ _ _ _ _ _ hce x hlx
            rw [hp'] at hxp'
            rcases List.mem_append.mp hxp' with h | h
            · exact h
            · exact absurd h (ReachA_dst hx).1
        have hpermP : newP.Perm g' := (List.perm_ext_iff_of_nodup hndP hndg).mpr hsetiff
        have hcnt_len : cnt = newP.length := by rw [hlen, hpermP.length_eq]
        have hnd1 : p'.Nodup := by
          rw [hp']
          exact List.Nodup.append hndP hnd (fun x hx1 hx2 => (hsoundP x hx1).1 hx2)
        have hsub1 : ∀ x ∈ p', x ∈ s.map Prod.fst := by
          intro x hx
          rw [hp'] at hx
          rcases List.mem_append.mp hx with h | h
          · exact (mapLookup_isSome_iff s x).mp (ReachA_dst (hsoundP x h).2).2
          · exact hsub x h
        obtain ⟨st', hrun', h1, h2, h3, h4, h5⟩ :=
          ih ⟨p', e', st.graphs ++ [⟨l, cnt⟩]⟩
            (fun x hx => hroots x (List.mem_cons_of_mem rt hx)) hnd1 hsub1
        have hsubp' : ∀ x ∈ p', x ∈ st'.processed := by
          intro x hx
          exact h3 x hx
        refine ⟨st', hrun', h1, h2, ?_, ?_, ?_⟩
        · intro x hx
          refine hsubp' x ?_
          rw [hp']
          exact List.mem_append_right newP hx
        · intro x hx
          rcases List.mem_cons.mp hx with rfl | hxr
          · refine hsubp' x ?_
            rw [hp']
            refine List.mem_append_left _ ?_
            exact (hsetiff x).mpr ((hiff x).mpr
              (ReachA.refl x hrtP ((mapLookup_isSome_iff s x).mpr hrtkey)))
          · exact h4 x hxr
        · have hlen1 : p'.length = newP.length + st.processed.length := by
            rw [hp', List.length_append]
          have hsum1 : (((st.graphs ++ [(⟨l, cnt⟩ : Graph)]).map Graph.Size).sum : Nat)
              = (st.graphs.map Graph.Size).sum + cnt := by
            rw [List.map_append, List.sum_append]
            simp
          dsimp only at h5
          rw [hsum1, hlen1] at h5
          omega

/-- Claim C3, amended: over a store whose relation mentions are
symmetric, a full sweep with minimum size 0 over all known identifiers
succeeds, marks every known identifier processed exactly once (the
processed list is duplicate-free and coincides with the store's key
set), and the recorded component sizes sum to the number of records. -/
theorem findGraphs_partition (s : Store) (roots : List Str)
    (hsym : symStore s) (hnd : (s.map Prod.fst).Nodup)
    (hroots : ∀ k, k ∈ roots ↔ k ∈ s.map Prod.fst) :
    ∃ st', findGraphs s 0 roots ⟨[], [], []⟩ = some st' ∧
      st'.processed.Nodup ∧
      (∀ k, k ∈ st'.processed ↔ k ∈ s.map Prod.fst) ∧
      (st'.graphs.map Graph.Size).sum = s.length := by
  obtain ⟨st', hrun, h1, h2, h3, h4, h5⟩ :=
    findGraphs_spec s hsym roots ⟨[], [], []⟩ (fun rt hrt => (hroots rt).mp hrt)
      List.nodup_nil (fun x hx => absurd hx (List.not_mem_nil x))
  have hiff : ∀ k, k ∈ st'.processed ↔ k ∈ s.map Prod.fst := by
    intro k
    exact ⟨h2 k, fun hk => h4 k ((hroots k).mpr hk)⟩
  have hperm : st'.processed.Perm (s.map Prod.fst) :=
    (List.perm_ext_iff_of_nodup h1 hnd).mpr hiff
  refine ⟨st', hrun, h1, hiff, ?_⟩
  dsimp only at h5
  simp only [List.map_nil, List.sum_nil, List.length_nil] at h5
  rw [← List.length_map s Prod.fst, ← hperm.length_eq]
  omega

/-- Counterexample to claim C3 as stated: sweeping every identifier of
the asymmetric store `asymStore` with minimum size 0 terminates with
`5` never added to the processed set — record `5` belongs to no
discovered component, because the component found from root `5` is
swept by `collectEdges` starting at leader `100`, which cannot reach
`5` through the one-sided mention. -/
theorem findGraphs_partition_cex :
    findGraphs asymStore 0 (asymStore.map Prod.fst) ⟨[], [], []⟩
      = some ⟨["100".data], [], [⟨"100".data, 2⟩]⟩ ∧
    "5".data ∈ asymStore.map Prod.fst ∧
    "5".data ∉ (["100".data] : List Str) := by
  decide

/-- Witness for C3 (amended): the full sweep over the symmetric store
`wStore` partitions its two records into one component of size 2. -/
theorem findGraphs_partition_witness :
    ∃ st', findGraphs wStore 0 (wStore.map Prod.fst) ⟨[], [], []⟩ = some st' ∧
      st'.processed.Nodup ∧
      (∀ k, k ∈ st'.processed ↔ k ∈ wStore.map Prod.fst) ∧
      (st'.graphs.map Graph.Size).sum = wStore.length :=
  findGraphs_partition wStore (wStore.map Prod.fst)
    (symStore_of_symCheck wStore (by decide)) (by decide) (fun k => Iff.rfl)

/-! ### Claim C2: the edge sort of the render -/

theorem bool_eq_false {b : Bool} (h : ¬ b = true) : b = false := by
  cases b
  · rfl
  · exact absurd rfl h

theorem edgeLess_asymm {a b : Edge} (h : edgeLess a b = true) : edgeLess b a = false := by
  unfold edgeLess at *
  by_cases hab : ltStr a.From b.From = true
  · rw [if_neg (by simp [ltStr_asymm hab]), if_pos hab]
  · rw [if_neg hab] at h
    by_cases hba : ltStr b.From a.From = true
    · rw [if_pos hba] at h
      exact absurd h (by decide)
    · rw [if_neg hba] at h
      rw [if_neg hba, if_neg hab]
      exact ltStr_asymm h

theorem edgeLess_trans {a b c : Edge} (h1 : edgeLess a b = true)
    (h2 : edgeLess b c = true) : edgeLess a c = true := by
  unfold edgeLess at *
  by_cases hab : ltStr a.From b.From = true
  · by_cases hbc : ltStr b.From c.From = true
    · rw [if_pos (ltStr_trans _ _ _ hab hbc)]
    · rw [if_neg hbc] at h2
      by_cases hcb : ltStr c.From b.From = true
      · rw [if_pos hcb] at h2
        exact absurd h2 (by decide)
      · have hfeq : c.From = b.From :=
          ltStr_conn _ _ (bool_eq_false hcb) (bool_eq_false hbc)
        rw [hfeq, if_pos hab]
  · rw [if_neg hab] at h1
    by_cases hba : ltStr b.From a.From = true
    · rw [if_pos hba] at h1
      exact absurd h1 (by decide)
    · rw [if_neg hba] at h1
      have hfeq : a.From = b.From :=
        ltStr_conn _ _ (bool_eq_false hab) (bool_eq_false hba)
      by_cases hbc : ltStr b.From c.From = true
      · rw [hfeq, if_pos hbc]
      · rw [if_neg hbc] at h2
        by_cases hcb : ltStr c.From b.From = true
        · rw [if_pos hcb] at h2
          exact absurd h2 (by decide)
        · rw [if_neg hcb] at h2
          have hfeq2 : b.From = c.From :=
            ltStr_conn _ _ (bool_eq_false hbc) (bool_eq_false hcb)
          rw [hfeq, hfeq2, if_neg (by simp [ltStr_irrefl]),
            if_neg (by simp [ltStr_irrefl])]
          exact ltStr_trans _ _ _ h1 h2

theorem mem_insEdge (e : Edge) : ∀ (l : List Edge) (x : Edge),
    x ∈ insEdge e l ↔ x = e ∨ x ∈ l := by
  intro l
  induction l with
  | nil =>
    intro x
    simp [insEdge]
  | cons f fs ih =>
    intro x
    unfold insEdge
    by_cases hef : edgeLess e f = true
    · rw [if_pos hef]
      simp only [List.mem_cons]
    · rw [if_neg hef]
      simp only [List.mem_cons, ih x]
      tauto

theorem insEdge_sorted (e : Edge) : ∀ (l : List Edge),
    l.Pairwise (fun a b => edgeLess b a = false) →
    (insEdge e l).Pairwise (fun a b => edgeLess b a = false) := by
  intro l
  induction l with
  | nil =>
    intro _
    simp [insEdge]
  | cons f fs ih =>
    intro hp
    rw [List.pairwise_cons] at hp
    obtain ⟨hf, hfs⟩ := hp
    unfold insEdge
    by_cases hef : edgeLess e f = true
    · rw [if_pos hef]
      refine List.Pairwise.cons ?_ (List.Pairwise.cons hf hfs)
      intro x hx
      rcases List.mem_cons.mp hx with rfl | hxfs
      · exact edgeLess_asymm hef
      · cases hxe : edgeLess x e with
        | false => rfl
        | true =>
          have hxf := edgeLess_trans hxe hef
          rw [hf x hxfs] at hxf
          exact absurd hxf (by decide)
    · rw [if_neg hef]
      refine List.Pairwise.cons ?_ (ih hfs)
      intro x hx
      rcases (mem_insEdge e fs x).mp hx with rfl | hxfs
      · exact bool_eq_false hef
      · exact hf x hxfs

/-- The stable sort of `printGraph` leaves the edge slice ordered by
(From, To): no later edge compares strictly below an earlier one. -/
theorem sortEdges_sorted (l : List Edge) :
    (sortEdges l).Pairwise (fun a b => edgeLess b a = false) := by
  suffices h : ∀ acc : List Edge, acc.Pairwise (fun a b => edgeLess b a = false) →
      (l.foldl (fun acc e => insEdge e acc) acc).Pairwise
        (fun a b => edgeLess b a = false) from h [] List.Pairwise.nil
  induction l with
  | nil =>
    intro acc h
    exact h
  | cons e es ih =>
    intro acc h
    rw [List.foldl_cons]
    exact ih _ (insEdge_sorted e acc h)

/-- The render of `cexStore` in its stored list order. -/
def cexOut1 : Str :=
  match printGraph cexStore ["100".data, "50".data] [] [] false with
  | .ok o => o
  | .error _ => []

/-- The render of `cexStore` in the reversed iteration order. -/
def cexOut2 : Str :=
  match printGraph cexStore.reverse ["100".data, "50".data] [] [] false with
  | .ok o => o
  | .error _ => []

set_option maxRecDepth 8000 in
/-- Counterexample to claim C2 as stated: the `RFCs` map iteration order
is not part of the "fixed processed-record set and edge collection", and
the render depends on it.  The two store lists hold the same entries (they
are permutations of each other), the processed set and the collected
edges are identical, yet the rendered bytes differ: the two records share
the (classification, status) node bucket and appear in iteration order. -/
theorem render_not_deterministic_cex :
    cexStore.Perm cexStore.reverse ∧
    ∃ o1 o2 : Str,
      printGraph cexStore ["100".data, "50".data] [] [] false = .ok o1 ∧
      printGraph cexStore.reverse ["100".data, "50".data] [] [] false = .ok o2 ∧
      o1 ≠ o2 := by
  refine ⟨(List.reverse_perm cexStore).symm, cexOut1, cexOut2, rfl, rfl, by decide⟩

/-- Claim C2, amended: with the map iteration orders fixed (the store
list, the edge-value list and the legend status order as given to
`printGraph`), two successful renders with the same timeline flag are
byte-identical, and in every successful render the edge lines are the
collected edges sorted by (From, then To), placed immediately before the
closing brace. -/
theorem render_deterministic_sorted (s : Store) (proc : List Str) (es : List Edge)
    (so : List Nat) (tl : Bool) (out1 out2 : Str)
    (h1 : printGraph s proc es so tl = .ok out1)
    (h2 : printGraph s proc es so tl = .ok out2) :
    out1 = out2 ∧
    (sortEdges es).Pairwise (fun a b => edgeLess b a = false) ∧
    ∃ (pre lines : Str), out1 = pre ++ lines ++ "\x7d\n".data ∧
      edgesSection es = .ok lines := by
  refine ⟨by rw [h1] at h2; exact Except.ok.inj h2, sortEdges_sorted es, ?_⟩
  unfold printGraph at h1
  cases hsc : scanRecords proc s (0, 0, [], []) with
  | error e0 => rw [hsc] at h1; exact absurd h1 (by simp)
  | ok acc =>
    obtain ⟨yLo, yHi, ranks, buckets⟩ := acc
    rw [hsc] at h1
    dsimp only at h1
    cases hleg : (if tl then legendSection so else .ok ([] : Str)) with
    | error e0 => rw [hleg] at h1; exact absurd h1 (by simp)
    | ok leg =>
      rw [hleg] at h1
      dsimp only at h1
      cases hes : edgesSection es with
      | error e0 => rw [hes] at h1; exact absurd h1 (by simp)
      | ok lines =>
        rw [hes] at h1
        dsimp only at h1
        refine ⟨"digraph rfc \x7b\n".data
          ++ (if tl then timelineHeader yLo yHi else [])
          ++ nodeSection buckets
          ++ (if tl then ranksSection yLo yHi ranks else [])
          ++ leg, lines, ?_, rfl⟩
        rw [← Except.ok.inj h1]

/-- A pair of out-of-order edges for the C2 witness. -/
def c2edges : List Edge :=
  [⟨"9".data, "1".data, Updated⟩, ⟨"1".data, "2".data, Obsoleted⟩]

/-- The render of `cexStore` with the `c2edges` collection, for the C2
witness. -/
def c2out : Str :=
  match printGraph cexStore ["100".data, "50".data] c2edges [] false with
  | .ok o => o
  | .error _ => []

/-- Witness for C2 (amended): on the concrete store `cexStore` with edge
collection `c2edges`, the render is reproducible and carries the sorted
edge section before the closing brace. -/
theorem render_deterministic_sorted_witness :
    c2out = c2out ∧
    (sortEdges c2edges).Pairwise (fun a b => edgeLess b a = false) ∧
    ∃ (pre lines : Str), c2out = pre ++ lines ++ "\x7d\n".data ∧
      edgesSection c2edges = .ok lines :=
  render_deterministic_sorted cexStore ["100".data, "50".data] c2edges [] false
    c2out c2out (by rfl) (by rfl)

end RfcSpec
